import Mathlib

/-!
# gpio-web: the sampling core of `experimental/cmd/gpio-web/main.go`

A shallow embedding of `readSamplesBCM`, `readSamples`, `readHandler` and the
`square` fixture, followed by theorems about them.

Modelling conventions.

* `time.Duration` is `int64`, counting nanoseconds. Go's `/` and `%` on it are
  `Int.tdiv` and `Int.tmod` (truncation towards zero), and a zero divisor is a
  run-time fault. In `readSamplesBCM` the deadline arithmetic is done on
  `time.Duration`, so its sums and differences wrap around (`wrap64`).
* `time.Time` values are integers counting nanoseconds on one time line.
  `Time.Add`, `Time.Equal` and `Time.After` do not wrap, and `Time.Sub`
  saturates at the limits of `time.Duration` (`sat64`).
* `uint32` values are naturals reduced modulo `2^32` where Go wraps.
* The outside world is the record `Host`: the readings the two clocks will
  deliver, the words the register bank will deliver, the pin registry and the
  levels every pin object will deliver. A call consumes them in order.
* A busy loop that is still polling when the clock readings run out ends in
  `Outcome.starved`; a Go run-time fault ends in `Outcome.panic`.
* `Host.trace` is a ghost log: each sampler records its entry, each slot
  records the deadline its busy loop starts with, and each `break` out of a
  busy loop records the clock reading it happened on.
-/

namespace GpioWeb

/-! ## Go library functions used by the source -/

/-- Go `time.Microsecond`, in nanoseconds. -/
def Microsecond : Int := 1000

/-- The value of an `int64` expression whose exact result is `x`: Go wraps
around modulo `2^64`. -/
def wrap64 (x : Int) : Int := (x + 2 ^ 63) % 2 ^ 64 - 2 ^ 63

/-- Go `Time.Sub` for an exact difference `x`: the result is cut off at the
smallest and largest `time.Duration`. -/
def sat64 (x : Int) : Int :=
  if x < -(2 ^ 63 : Int) then -(2 ^ 63 : Int)
  else if (2 ^ 63 : Int) - 1 < x then (2 ^ 63 : Int) - 1
  else x

/-- Go `strings.HasPrefix`. -/
def HasPrefix (s pre : String) : Bool := pre.toList.isPrefixOf s.toList

/-- Value of a run of decimal digits, most significant first, continuing from
`acc`; `none` when a character is not a decimal digit. -/
def parseDigits (acc : Nat) : List Char → Option Nat
  | [] => some acc
  | c :: cs =>
    if 48 ≤ c.toNat ∧ c.toNat ≤ 57 then parseDigits (acc * 10 + (c.toNat - 48)) cs
    else none

/-- Go `strconv.Atoi` on a 64-bit `int`: an optional sign, then at least one
decimal digit; `none` stands for the `*NumError` (bad syntax or out of
range). -/
def Atoi (s : List Char) : Option Int :=
  let neg : Bool := s.head? = some '-'
  let body : List Char :=
    if s.head? = some '-' ∨ s.head? = some '+' then s.tail else s
  if body = [] then none
  else
    match parseDigits 0 body with
    | none => none
    | some n =>
      let v : Int := if neg then -(n : Int) else (n : Int)
      if v < -(2 ^ 63 : Int) ∨ (2 ^ 63 : Int) - 1 < v then none else some v

/-- Go `strings.Split(v, ",")` on the characters of `v`; `cur` is the piece
being read. -/
def splitAux (cur : List Char) : List Char → List (List Char)
  | [] => [cur]
  | c :: cs => if c = ',' then cur :: splitAux [] cs else splitAux (cur ++ [c]) cs

/-- Go `strings.Split(v, ",")`. -/
def Split (v : String) : List String := (splitAux [] v.toList).map String.mk

/-! ## Results -/

/-- The errors the two samplers return. -/
inductive Error
  /-- "resolution %s must be rounded to 1µs" -/
  | rounded1us (res : Int)
  /-- "maximum 8 pins can be read simultaneously" -/
  | max8
  /-- "failed to process %s: %v" -/
  | failedToProcess (p : String)
  /-- "invalid pin, supported range is [0, 31]" -/
  | invalidPin
  /-- "overrun by %s" -/
  | overrun (excess : Int)
  /-- "resolution %s must be rounded to 10µs" -/
  | rounded10us (res : Int)
  /-- "maximum 2 pins can be read simultaneously in the general code path" -/
  | max2
  /-- "pins %q is unavailable" -/
  | unavailable (pin : String)
  deriving DecidableEq, Repr

/-- Go run-time faults. -/
inductive Panic
  /-- index `i` used on an array of length `len` -/
  | indexOutOfRange (i len : Nat)
  /-- method call through a nil interface -/
  | nilDereference
  /-- integer division or remainder by zero -/
  | divideByZero
  /-- `make` with a negative length -/
  | makeNegativeLen
  deriving DecidableEq, Repr

/-- How a call ends. -/
inductive Outcome
  /-- `return nil` -/
  | ok
  /-- `return err` -/
  | err (e : Error)
  /-- a run-time fault -/
  | panic (p : Panic)
  /-- still waiting for the clock when the supplied readings end -/
  | starved
  deriving DecidableEq, Repr

/-- Ghost events. -/
inductive Event
  /-- `readSamplesBCM` was entered -/
  | readSamplesBCM
  /-- `readSamples` was entered -/
  | readSamples
  /-- a slot's busy loop was entered with this deadline `next` -/
  | deadline (next : Int)
  /-- a busy loop was left through `break` on this clock reading -/
  | capture (t : Int)
  deriving DecidableEq, Repr

/-! ## The outside world -/

/-- The outside world of one call. -/
structure Host where
  /-- the values `bcm283x.ReadTime()` will return, in order -/
  ReadTime : List Int
  /-- the values `time.Now()` will return, in order -/
  Now : List Int
  /-- the word the `k`-th call of `bcm283x.PinsRead0To31()` returns -/
  PinsRead0To31 : Nat → Nat
  /-- number of calls of `bcm283x.PinsRead0To31()` so far -/
  bankReads : Nat
  /-- `gpioreg.ByName`: the pin object registered under a name, `none` for nil -/
  ByName : String → Option Nat
  /-- the level the `k`-th `Read()` of a pin object returns -/
  Level : Nat → Nat → Bool
  /-- number of `Read()` calls so far, per pin object -/
  reads : Nat → Nat
  /-- ghost log -/
  trace : List Event

/-- `gpiostream.BitStreamLSB`. -/
structure BitStreamLSB where
  /-- `Res` -/
  Res : Int
  /-- `Bits`, one byte per slot -/
  Bits : List Nat

/-- What a sampler leaves behind: how it ended, the world, and `b.Bits`. -/
structure Run where
  /-- how the call ended -/
  out : Outcome
  /-- the world after the call -/
  host : Host
  /-- `b.Bits` after the call -/
  bits : List Nat

/-- One `Read()` on pin object `id`. -/
def Host.Read (h : Host) (id : Nat) : Bool × Host :=
  (h.Level id (h.reads id),
   { h with reads := Function.update h.reads id (h.reads id + 1) })

/-- How a wait loop ends. -/
inductive Wait
  /-- left through `break` on reading `t`; `next` is the new deadline -/
  | tick (t next : Int) (rest : List Int)
  /-- returned the overrun error -/
  | overrun (excess : Int) (rest : List Int)
  /-- still polling when the readings end -/
  | starved
  deriving DecidableEq, Repr

/-! ## `readSamples` -/

/-- The `for { ... }` busy loop of `readSamples`, fed the readings of `time.Now()`. -/
def waitGeneric (delta acceptable next : Int) : List Int → Wait
  | [] => .starved
  | now :: rest =>
    if now = next then .tick now (next + delta) rest
    else if now > next then
      if now > next + acceptable then .overrun (sat64 (now - next)) rest
      else .tick now (next + delta) rest
    else waitGeneric delta acceptable next rest

/-- How a preparation loop ends: it ran to its end with a value, or it left
the function. -/
inductive Prep (α : Type)
  /-- the loop ran to its end -/
  | done (a : α)
  /-- the function returned or faulted inside the loop -/
  | stop (o : Outcome)
  deriving DecidableEq, Repr

/-- The loop `for i, pin := range pins` of `readSamples` filling
`var p [2]gpio.PinIn`; it stops at the first name that does not resolve. -/
def resolvePins (h : Host) : Nat → List String → List (Option Nat) →
    Prep (List (Option Nat))
  | _, [], p => .done p
  | i, pin :: rest, p =>
    if 2 ≤ i then .stop (.panic (.indexOutOfRange i 2))
    else
      match h.ByName pin with
      | none => .stop (.err (.unavailable pin))
      | some id => resolvePins h (i + 1) rest (p.set i (some id))

/-- The loop `for i := range bits` of `readSamples`: `m` slots are left, `i` is
the current one. -/
def slotsGeneric (p0 p1 : Option Nat) (delta acceptable : Int) :
    Nat → Nat → Int → Host → List Nat → Run
  | 0, _, _, h, bits => ⟨.ok, h, bits⟩
  | m + 1, i, next, h, bits =>
    let tr := h.trace ++ [.deadline next]
    match waitGeneric delta acceptable next h.Now with
    | .starved => ⟨.starved, { h with Now := [], trace := tr }, bits⟩
    | .overrun e rest => ⟨.err (.overrun e), { h with Now := rest, trace := tr }, bits⟩
    | .tick t next' rest =>
      let h1 : Host := { h with Now := rest, trace := tr ++ [.capture t] }
      match p0 with
      | none => ⟨.panic .nilDereference, h1, bits⟩
      | some a =>
        let r0 := h1.Read a
        let x0 : Nat := if r0.1 then 1 else 0
        match p1 with
        | none => slotsGeneric p0 p1 delta acceptable m (i + 1) next' r0.2 (bits.set i x0)
        | some c =>
          let r1 := r0.2.Read c
          let x1 : Nat := if r1.1 then x0 ||| 2 else x0
          slotsGeneric p0 p1 delta acceptable m (i + 1) next' r1.2 (bits.set i x1)

/-- `readSamples` reads arbitrary GPIOs at the specified frequency. -/
def readSamples (h : Host) (b : BitStreamLSB) (pins : List String) : Run :=
  let h0 : Host := { h with trace := h.trace ++ [.readSamples] }
  if b.Res.tmod (10 * Microsecond) ≠ 0 then ⟨.err (.rounded10us b.Res), h0, b.Bits⟩
  else if pins.length > 2 then ⟨.err .max2, h0, b.Bits⟩
  else
    match resolvePins h0 0 pins [none, none] with
    | .stop o => ⟨o, h0, b.Bits⟩
    | .done p =>
      let delta := b.Res
      match h0.Now with
      | [] => ⟨.starved, h0, b.Bits⟩
      | start :: rest =>
        let next := start + delta
        let acceptable := delta.tdiv 100
        slotsGeneric (p.getD 0 none) (p.getD 1 none) delta acceptable
          b.Bits.length 0 next { h0 with Now := rest } b.Bits

/-! ## `readSamplesBCM` -/

/-- How the first loop of `readSamplesBCM` ends. -/
inductive Scan
  /-- every name was `GPIO` followed by a number: the numbers, in order -/
  | nums (num : List Int)
  /-- `strconv.Atoi` failed on this name -/
  | failed (p : String)
  /-- a name without the `GPIO` start was met: fall back to `readSamples` -/
  | generic
  deriving DecidableEq, Repr

/-- The loop `for _, p := range pins` of `readSamplesBCM`. -/
def scanPins (num : List Int) : List String → Scan
  | [] => .nums num
  | p :: rest =>
    if HasPrefix p "GPIO" then
      match Atoi (p.toList.drop 4) with
      | none => .failed p
      | some n => scanPins (num ++ [n]) rest
    else .generic

/-- The arrays `masks` and `shifts`, both `[8]uint32`. -/
structure Tables where
  /-- `masks` -/
  masks : List Nat
  /-- `shifts` -/
  shifts : List Nat
  deriving DecidableEq, Repr

/-- The zero value of both arrays. -/
def Tables.zero : Tables := ⟨List.replicate 8 0, List.replicate 8 0⟩

/-- The loop `for i, p := range num` of `readSamplesBCM`. An index of 8 or more
into either array is a run-time fault. -/
def fillTables : Nat → List Int → Tables → Prep Tables
  | _, [], T => .done T
  | i, p :: rest, T =>
    if p < 0 ∨ p > 31 then .stop (.err .invalidPin)
    else if 8 ≤ i then .stop (.panic (.indexOutOfRange i 8))
    else
      fillTables (i + 1) rest
        { masks := T.masks.set i ((1 <<< p.toNat) % 2 ^ 32),
          shifts := T.shifts.set i ((p - (i : Int)) % (2 ^ 32 : Int)).toNat }

/-- The unrolled combination of `readSamplesBCM`: `byte(x)` for the bank word `v`. -/
def combine (T : Tables) (v : Nat) : Nat :=
  let x := (v &&& T.masks.getD 0 0) >>> T.shifts.getD 0 0
  let x := x ||| ((v &&& T.masks.getD 1 0) >>> T.shifts.getD 1 0)
  let x := x ||| ((v &&& T.masks.getD 2 0) >>> T.shifts.getD 2 0)
  let x := x ||| ((v &&& T.masks.getD 3 0) >>> T.shifts.getD 3 0)
  let x := x ||| ((v &&& T.masks.getD 4 0) >>> T.shifts.getD 4 0)
  let x := x ||| ((v &&& T.masks.getD 5 0) >>> T.shifts.getD 5 0)
  let x := x ||| ((v &&& T.masks.getD 6 0) >>> T.shifts.getD 6 0)
  let x := x ||| ((v &&& T.masks.getD 7 0) >>> T.shifts.getD 7 0)
  x % 256

/-- The `for { ... }` busy loop of `readSamplesBCM`, fed the readings of
`bcm283x.ReadTime()`. `next+acceptable`, `next += delta` and `t-next` are
`int64` operations. -/
def waitBCM (delta acceptable next : Int) : List Int → Wait
  | [] => .starved
  | t :: rest =>
    if t ≥ next ∧ t ≤ wrap64 (next + acceptable) then .tick t (wrap64 (next + delta)) rest
    else if t > next then .overrun (wrap64 (t - next)) rest
    else waitBCM delta acceptable next rest

/-- The loop `for i := range bits` of `readSamplesBCM`: `m` slots are left, `i`
is the current one. -/
def slotsBCM (T : Tables) (delta acceptable : Int) :
    Nat → Nat → Int → Host → List Nat → Run
  | 0, _, _, h, bits => ⟨.ok, h, bits⟩
  | m + 1, i, next, h, bits =>
    let tr := h.trace ++ [.deadline next]
    match waitBCM delta acceptable next h.ReadTime with
    | .starved => ⟨.starved, { h with ReadTime := [], trace := tr }, bits⟩
    | .overrun e rest => ⟨.err (.overrun e), { h with ReadTime := rest, trace := tr }, bits⟩
    | .tick t next' rest =>
      let v := h.PinsRead0To31 h.bankReads % 2 ^ 32
      slotsBCM T delta acceptable m (i + 1) next'
        { h with ReadTime := rest, bankReads := h.bankReads + 1,
                 trace := tr ++ [.capture t] }
        (bits.set i (combine T v))

/-- `readSamplesBCM` reads GPIOs at the specified frequency via the bcm283x. -/
def readSamplesBCM (h : Host) (b : BitStreamLSB) (pins : List String) : Run :=
  let h0 : Host := { h with trace := h.trace ++ [.readSamplesBCM] }
  if b.Res.tmod Microsecond ≠ 0 then ⟨.err (.rounded1us b.Res), h0, b.Bits⟩
  else if pins.length > 9 then ⟨.err .max8, h0, b.Bits⟩
  else
    match scanPins [] pins with
    | .failed p => ⟨.err (.failedToProcess p), h0, b.Bits⟩
    | .generic => readSamples h0 b pins
    | .nums num =>
      match fillTables 0 num Tables.zero with
      | .stop o => ⟨o, h0, b.Bits⟩
      | .done T =>
        let delta := b.Res
        match h0.ReadTime with
        | [] => ⟨.starved, h0, b.Bits⟩
        | start :: rest =>
          let next := wrap64 (start + delta)
          let acceptable := delta.tdiv 100
          slotsBCM T delta acceptable b.Bits.length 0 next
            { h0 with ReadTime := rest } b.Bits

/-! ## `readHandler` -/

/-- The request as `readHandler` sees it: the method and the three form values
(`""` when absent). -/
structure Request where
  /-- `r.Method` -/
  Method : String
  /-- `r.FormValue("pins")` -/
  pins : String
  /-- `r.FormValue("res")` -/
  res : String
  /-- `r.FormValue("dur")` -/
  dur : String

/-- The texts `readHandler` passes to `http.Error`. -/
inductive Reason
  /-- "Only GET is allowed" -/
  | onlyGet
  /-- "query argument \"pins\" is required" -/
  | pinsRequired
  /-- "query argument \"res\" is required" -/
  | resRequired
  /-- "failed to parse \"res\"" -/
  | resParse
  /-- "query argument \"dur\" is required" -/
  | durRequired
  /-- "failed to parse \"dur\"" -/
  | durParse
  /-- "\"dur\" must be a multiple of \"res\"" -/
  | notMultiple
  /-- `err.Error()` of the sampler -/
  | sampler (e : Error)
  deriving DecidableEq, Repr

/-- What `readHandler` does to the response. -/
inductive Response
  /-- `http.Error(w, why, code)` -/
  | error (code : Nat) (why : Reason)
  /-- `w.Write(b.Bits)` -/
  | octets (body : List Nat)
  /-- the handler faulted -/
  | fault (p : Panic)
  /-- a sampler was still waiting when the clock readings ended -/
  | starved
  deriving DecidableEq, Repr

/-- `(*webServer).readHandler`; `ParseDuration` is Go's `time.ParseDuration`
(`none` for an error) and `isBCM` is `s.isBCM`. -/
def readHandler (ParseDuration : String → Option Int) (isBCM : Bool) (h : Host)
    (r : Request) : Response × Host :=
  if r.Method ≠ "GET" then (.error 405 .onlyGet, h)
  else if r.pins = "" then (.error 400 .pinsRequired, h)
  else
    let pins := Split r.pins
    if r.res = "" then (.error 400 .resRequired, h)
    else
      match ParseDuration r.res with
      | none => (.error 400 .resParse, h)
      | some res =>
        if r.dur = "" then (.error 400 .durRequired, h)
        else
          match ParseDuration r.dur with
          | none => (.error 400 .durParse, h)
          | some dur =>
            if res = 0 then (.fault .divideByZero, h)
            else if dur.tmod res ≠ 0 then (.error 400 .notMultiple, h)
            else if dur.tdiv res < 0 then (.fault .makeNegativeLen, h)
            else
              let b : BitStreamLSB :=
                { Res := res, Bits := List.replicate (dur.tdiv res).toNat 0 }
              let run := if isBCM then readSamplesBCM h b pins else readSamples h b pins
              match run.out with
              | .ok => (.octets run.bits, run.host)
              | .err e => (.error 400 (.sampler e), run.host)
              | .panic p => (.fault p, run.host)
              | .starved => (.starved, run.host)

/-! ## The `square` fixture -/

/-- The `square` pin: `gpiotest.Pin` with its level field `L`. -/
structure square where
  /-- `L` -/
  L : Bool
  deriving DecidableEq, Repr

/-- `(*square).Read`: returns the level and flips it. -/
def square.Read (s : square) : Bool × square := (s.L, { L := !s.L })

/-- The level the `k`-th `Read()` of a `square` returns, by running `Read`. -/
def square.level (s : square) : Nat → Bool
  | 0 => s.Read.1
  | k + 1 => square.level s.Read.2 k

/-! ## The pins of `newWebServer` on a host without pins -/

/-- The registry after `newWebServer` registered `SQUARE` (number 0), `HIGH`
(number 1) and `LOW` (number 2); a pin is found by name or by number. -/
def fakeByName (name : String) : Option Nat :=
  if name = "SQUARE" ∨ name = "0" then some 0
  else if name = "HIGH" ∨ name = "1" then some 1
  else if name = "LOW" ∨ name = "2" then some 2
  else none

/-- The levels of the three pins: `SQUARE` starts low and flips on every read,
`HIGH` is high, `LOW` is low. -/
def fakeLevel (id k : Nat) : Bool :=
  if id = 0 then square.level ⟨false⟩ k else if id = 1 then true else false

/-- A fresh world holding the three pins, with the given clock readings and
bank words. -/
def fakeHost (ReadTime Now : List Int) (bank : Nat → Nat) : Host :=
  { ReadTime := ReadTime, Now := Now, PinsRead0To31 := bank, bankReads := 0,
    ByName := fakeByName, Level := fakeLevel, reads := fun _ => 0, trace := [] }

/-- Nine bank pins, `GPIO0` to `GPIO8`. -/
def ninePins : List String :=
  ["GPIO0", "GPIO1", "GPIO2", "GPIO3", "GPIO4", "GPIO5", "GPIO6", "GPIO7", "GPIO8"]

/-- A `time.ParseDuration` that knows three texts. -/
def parseThree (v : String) : Option Int :=
  if v = "0s" then some 0
  else if v = "1ms" then some 1000000
  else if v = "1.5ms" then some 1500000
  else none

/-- The value fits in an `int64`. -/
@[reducible] def inInt64 (x : Int) : Prop := -(2 ^ 63 : Int) ≤ x ∧ x < 2 ^ 63

/-! ## Specification of the overrun -/

/-- Spec: the readings from the first one at or after the deadline `d` on. -/
def fromDeadline (d : Int) (ts : List Int) : List Int :=
  ts.dropWhile fun u => decide (u < d)

/-- Spec of the overrun: the slots are gone through in order with the deadlines
`d`, `d + delta`, ...; each slot looks at the first reading at or after its
deadline and goes on with the readings after it. The first slot whose reading
is later than its deadline plus the tolerance is the overrun: the result is
the number of slots before it, its deadline, that reading, and the readings
after it. -/
def lateSlot (delta tolerance : Int) : Nat → Int → List Int → Option (Nat × Int × Int × List Int)
  | 0, _, _ => none
  | m + 1, d, ts =>
    match fromDeadline d ts with
    | [] => none
    | t :: rest =>
      if d + tolerance < t then some (0, d, t, rest)
      else (lateSlot delta tolerance m (d + delta) rest).map fun r => (r.1 + 1, r.2)

/-! ## Reading the ghost log -/

/-- The deadlines recorded in a log, in the order of the slots. -/
def deadlinesOf (tr : List Event) : List Int :=
  tr.filterMap fun e =>
    match e with
    | .deadline d => some d
    | _ => none

/-- The clock readings on which a busy loop was left, in the order of the slots. -/
def capturesOf (tr : List Event) : List Int :=
  tr.filterMap fun e =>
    match e with
    | .capture t => some t
    | _ => none

/-! ## Theorems -/

/-- C1 (failing input). With a resolution that is a multiple of 1µs, the nine
names `GPIO0` .. `GPIO8` pass the length check `len(pins) > 9`, and the loop
filling the 8-entry tables then indexes them at 8: `readSamplesBCM` faults
instead of returning the "maximum 8 pins" error (it has read no clock, no
bank word and written no slot by then). -/
theorem readSamplesBCM_nine_pins_fault (h : Host) (b : BitStreamLSB)
    (hres : b.Res.tmod Microsecond = 0) :
    readSamplesBCM h b ninePins =
      ⟨.panic (.indexOutOfRange 8 8),
       { h with trace := h.trace ++ [.readSamplesBCM] }, b.Bits⟩ := by
  have hscan : scanPins [] ninePins = .nums [0, 1, 2, 3, 4, 5, 6, 7, 8] := by decide
  have hfill : fillTables 0 [0, 1, 2, 3, 4, 5, 6, 7, 8] Tables.zero =
      .stop (.panic (.indexOutOfRange 8 8)) := by decide
  have hlen : ¬ ninePins.length > 9 := by decide
  simp only [readSamplesBCM, hres, hscan, hfill, hlen, ne_eq, not_true_eq_false, if_false]

/-- Witness of `readSamplesBCM_nine_pins_fault`: a 1µs resolution and a
two-slot buffer. -/
theorem readSamplesBCM_nine_pins_fault_witness :
    (1000 : Int).tmod Microsecond = 0 ∧
    readSamplesBCM (fakeHost [0, 1000] [] fun _ => 0) ⟨1000, [7, 7]⟩ ninePins =
      ⟨.panic (.indexOutOfRange 8 8),
       { fakeHost [0, 1000] [] (fun _ => 0) with trace := [] ++ [.readSamplesBCM] },
       [7, 7]⟩ :=
  ⟨by decide, readSamplesBCM_nine_pins_fault _ ⟨1000, [7, 7]⟩ (by decide)⟩

/-- With ten names or more and a resolution that is a multiple of 1µs,
`readSamplesBCM` returns the "maximum 8 pins" error and touches nothing. -/
theorem readSamplesBCM_ten_or_more (h : Host) (b : BitStreamLSB) (pins : List String)
    (hres : b.Res.tmod Microsecond = 0) (hlen : 9 < pins.length) :
    readSamplesBCM h b pins =
      ⟨.err .max8, { h with trace := h.trace ++ [.readSamplesBCM] }, b.Bits⟩ := by
  simp [readSamplesBCM, hres, hlen]

/-- C2 (failing input). Request `[GPIO5, GPIO0]` and a bank word in which
GPIO0 is high and GPIO5 is low: the shift of the second pin is
`uint32(0 - 1) = 4294967295`, so its bit is shifted out and the stored byte is
0, not `0b10`. The same word with the request `[GPIO0, GPIO5]` gives 1. -/
theorem readSamplesBCM_descending_pins_lose_bit :
    fillTables 0 [5, 0] Tables.zero =
      .done ⟨[32, 1, 0, 0, 0, 0, 0, 0], [5, 4294967295, 0, 0, 0, 0, 0, 0]⟩ ∧
    (readSamplesBCM (fakeHost [0, 1000] [] fun _ => 1) ⟨1000, [7]⟩ ["GPIO5", "GPIO0"]).out
      = .ok ∧
    (readSamplesBCM (fakeHost [0, 1000] [] fun _ => 1) ⟨1000, [7]⟩ ["GPIO5", "GPIO0"]).bits
      = [0] ∧
    (readSamplesBCM (fakeHost [0, 1000] [] fun _ => 1) ⟨1000, [7]⟩ ["GPIO0", "GPIO5"]).bits
      = [1] := by
  decide

/-- C3 (counterexample). A GET request with `res=1ms` and `dur=0s`: the zero
duration is an exact multiple of the resolution, so `readHandler` makes an
empty buffer and calls `readSamplesBCM`, which succeeds; the answer is the
(empty) body, not a 400. -/
theorem readHandler_zero_duration_reaches_sampler :
    (readHandler parseThree true (fakeHost [0] [] fun _ => 0)
        ⟨"GET", "GPIO0", "1ms", "0s"⟩).1 = .octets [] ∧
    Event.readSamplesBCM ∈
      (readHandler parseThree true (fakeHost [0] [] fun _ => 0)
        ⟨"GET", "GPIO0", "1ms", "0s"⟩).2.trace := by
  decide

/-- C3 (amended). For a GET request with all three arguments present whose
parsed resolution is not zero and whose parsed duration is not an exact
multiple of it, `readHandler` answers 400 ("dur" must be a multiple of "res")
and leaves the world as it was: no sampler was entered, no clock or pin was
read, no bytes were sent, and nothing faulted. -/
theorem readHandler_rejects_non_multiple (ParseDuration : String → Option Int)
    (isBCM : Bool) (h : Host) (r : Request) (res dur : Int)
    (hm : r.Method = "GET") (hp : r.pins ≠ "") (hr : r.res ≠ "") (hd : r.dur ≠ "")
    (hres : ParseDuration r.res = some res) (hdur : ParseDuration r.dur = some dur)
    (hnz : res ≠ 0) (hrem : dur.tmod res ≠ 0) :
    readHandler ParseDuration isBCM h r = (.error 400 .notMultiple, h) := by
  simp [readHandler, hm, hp, hr, hd, hres, hdur, hnz, hrem]

/-- Witness of `readHandler_rejects_non_multiple`: `res=1ms`, `dur=1.5ms`. -/
theorem readHandler_rejects_non_multiple_witness :
    readHandler parseThree false (fakeHost [] [0] fun _ => 0)
        ⟨"GET", "HIGH", "1ms", "1.5ms"⟩ =
      (.error 400 .notMultiple, fakeHost [] [0] fun _ => 0) :=
  readHandler_rejects_non_multiple parseThree false _ ⟨"GET", "HIGH", "1ms", "1.5ms"⟩
    1000000 1500000 (by decide) (by decide) (by decide) (by decide) (by decide)
    (by decide) (by decide) (by decide)

/-- A parsed resolution of zero makes `dur%res` divide by zero: `readHandler`
faults before it answers. -/
theorem readHandler_zero_resolution_faults (ParseDuration : String → Option Int)
    (isBCM : Bool) (h : Host) (r : Request) (dur : Int)
    (hm : r.Method = "GET") (hp : r.pins ≠ "") (hr : r.res ≠ "") (hd : r.dur ≠ "")
    (hres : ParseDuration r.res = some 0) (hdur : ParseDuration r.dur = some dur) :
    readHandler ParseDuration isBCM h r = (.fault .divideByZero, h) := by
  simp [readHandler, hm, hp, hr, hd, hres, hdur]

/-- C4 (counterexample). A zero resolution and the resolution -10µs pass the
check of both samplers: with a zero resolution both captures succeed, with
-10µs both read the clock and report an overrun. -/
theorem resolution_zero_or_negative_not_rejected :
    (readSamplesBCM (fakeHost [5, 5] [] fun _ => 1) ⟨0, [7]⟩ ["GPIO0"]).out = .ok ∧
    (readSamplesBCM (fakeHost [5, 5] [] fun _ => 1) ⟨0, [7]⟩ ["GPIO0"]).bits = [1] ∧
    (readSamples (fakeHost [] [5, 5] fun _ => 0) ⟨0, [7]⟩ ["HIGH"]).out = .ok ∧
    (readSamples (fakeHost [] [5, 5] fun _ => 0) ⟨0, [7]⟩ ["HIGH"]).bits = [1] ∧
    (readSamplesBCM (fakeHost [5, 6] [] fun _ => 1) ⟨-10000, [7]⟩ ["GPIO0"]).out
      = .err (.overrun 10001) ∧
    (readSamples (fakeHost [] [5, 6] fun _ => 0) ⟨-10000, [7]⟩ ["HIGH"]).out
      = .err (.overrun 10001) := by
  decide

/-- C4 (amended). `readSamplesBCM` returns the resolution error, having read
no clock and written no slot, for every `b.Res` whose remainder by 1µs is not
zero, and `readSamples` does so for every `b.Res` whose remainder by 10µs is
not zero. -/
theorem resolution_not_rounded_rejected (h : Host) (b : BitStreamLSB) (pins : List String) :
    (b.Res.tmod Microsecond ≠ 0 →
      readSamplesBCM h b pins =
        ⟨.err (.rounded1us b.Res), { h with trace := h.trace ++ [.readSamplesBCM] },
         b.Bits⟩) ∧
    (b.Res.tmod (10 * Microsecond) ≠ 0 →
      readSamples h b pins =
        ⟨.err (.rounded10us b.Res), { h with trace := h.trace ++ [.readSamples] },
         b.Bits⟩) := by
  constructor
  · intro hres
    simp [readSamplesBCM, hres]
  · intro hres
    simp [readSamples, hres]

/-- Witness of `resolution_not_rounded_rejected`: 1500ns is no multiple of
1µs, and 15µs is no multiple of 10µs. -/
theorem resolution_not_rounded_rejected_witness :
    ((1500 : Int).tmod Microsecond ≠ 0 ∧
      readSamplesBCM (fakeHost [0] [] fun _ => 0) ⟨1500, [7]⟩ ["GPIO0"] =
        ⟨.err (.rounded1us 1500),
         { fakeHost [0] [] (fun _ => 0) with trace := [] ++ [.readSamplesBCM] }, [7]⟩) ∧
    ((15000 : Int).tmod (10 * Microsecond) ≠ 0 ∧
      readSamples (fakeHost [] [0] fun _ => 0) ⟨15000, [7]⟩ ["HIGH"] =
        ⟨.err (.rounded10us 15000),
         { fakeHost [] [0] (fun _ => 0) with trace := [] ++ [.readSamples] }, [7]⟩) :=
  ⟨⟨by decide,
    (resolution_not_rounded_rejected (fakeHost [0] [] fun _ => 0) ⟨1500, [7]⟩
      ["GPIO0"]).1 (by decide)⟩,
   ⟨by decide,
    (resolution_not_rounded_rejected (fakeHost [] [0] fun _ => 0) ⟨15000, [7]⟩
      ["HIGH"]).2 (by decide)⟩⟩

/-- The first loop of `readSamplesBCM` falls back to the generic path at the
first name without the `GPIO` start, when the names before it all parse. -/
theorem scanPins_generic (pre : List String) (q : String) (post : List String)
    (hpre : ∀ p ∈ pre, HasPrefix p "GPIO" = true ∧ (Atoi (p.toList.drop 4)).isSome = true)
    (hq : HasPrefix q "GPIO" = false) :
    ∀ num, scanPins num (pre ++ q :: post) = .generic := by
  induction pre with
  | nil => intro num; simp [scanPins, hq]
  | cons p pre ih =>
    intro num
    have hp := hpre p (by simp)
    obtain ⟨n, hn⟩ := Option.isSome_iff_exists.mp hp.2
    simp only [List.cons_append, scanPins, hp.1, if_true, hn]
    exact ih (fun p' hp' => hpre p' (by simp [hp'])) _

/-- When every name starts with `GPIO`, the first loop never falls back. -/
theorem scanPins_no_fallback (pins : List String)
    (hall : ∀ p ∈ pins, HasPrefix p "GPIO" = true) :
    ∀ num, scanPins num pins ≠ .generic := by
  induction pins with
  | nil => intro num; simp [scanPins]
  | cons p pins ih =>
    intro num
    have hp := hall p (by simp)
    simp only [scanPins, hp, if_true]
    cases hA : Atoi (p.toList.drop 4) with
    | none => simp
    | some n =>
      simp only []
      exact ih (fun p' hp' => hall p' (by simp [hp'])) _

/-- The slot loop of `readSamplesBCM` only adds deadlines and captures to the log. -/
theorem slotsBCM_trace (T : Tables) (delta a : Int) :
    ∀ (m i : Nat) (next : Int) (h : Host) (bits : List Nat),
      Event.readSamples ∉ h.trace →
      Event.readSamples ∉ (slotsBCM T delta a m i next h bits).host.trace := by
  intro m
  induction m with
  | zero => intro i next h bits hh; simpa [slotsBCM] using hh
  | succ m ih =>
    intro i next h bits hh
    simp only [slotsBCM]
    cases hw : waitBCM delta a next h.ReadTime with
    | starved => simpa using hh
    | overrun e rest => simpa using hh
    | tick t n' rest =>
      simp only []
      apply ih
      simpa using hh

/-- The slot loop of `readSamples` does not look at the log. -/
theorem slotsGeneric_trace (p0 p1 : Option Nat) (delta a : Int) :
    ∀ (m i : Nat) (next : Int) (h : Host) (bits : List Nat) (tr : List Event),
      ∃ tr',
        slotsGeneric p0 p1 delta a m i next { h with trace := tr } bits =
          ⟨(slotsGeneric p0 p1 delta a m i next h bits).out,
           { (slotsGeneric p0 p1 delta a m i next h bits).host with trace := tr' },
           (slotsGeneric p0 p1 delta a m i next h bits).bits⟩ := by
  intro m
  induction m with
  | zero => intro i next h bits tr; exact ⟨tr, by simp [slotsGeneric]⟩
  | succ m ih =>
    intro i next h bits tr
    simp only [slotsGeneric]
    cases hw : waitGeneric delta a next h.Now with
    | starved => exact ⟨_, rfl⟩
    | overrun e rest => exact ⟨_, rfl⟩
    | tick t n' rest =>
      simp only []
      cases p0 with
      | none => exact ⟨_, rfl⟩
      | some x =>
        cases p1 with
        | none =>
          simp only [Host.Read]
          exact ih (i + 1) n'
            { h with Now := rest, reads := Function.update h.reads x (h.reads x + 1),
                     trace := h.trace ++ [.deadline next] ++ [.capture t] }
            _ (tr ++ [.deadline next] ++ [.capture t])
        | some y =>
          simp only [Host.Read]
          exact ih (i + 1) n'
            { h with Now := rest,
                     reads := Function.update (Function.update h.reads x (h.reads x + 1)) y
                       (Function.update h.reads x (h.reads x + 1) y + 1),
                     trace := h.trace ++ [.deadline next] ++ [.capture t] }
            _ (tr ++ [.deadline next] ++ [.capture t])

/-- `readSamples` does not look at the log. -/
theorem readSamples_trace (h : Host) (b : BitStreamLSB) (pins : List String)
    (tr : List Event) :
    ∃ tr',
      readSamples { h with trace := tr } b pins =
        ⟨(readSamples h b pins).out, { (readSamples h b pins).host with trace := tr' },
         (readSamples h b pins).bits⟩ := by
  simp only [readSamples]
  by_cases hres : b.Res.tmod (10 * Microsecond) = 0
  swap
  · simp only [hres, ne_eq, not_false_eq_true, if_true]; exact ⟨_, rfl⟩
  · simp only [hres, ne_eq, not_true_eq_false, if_false]
    by_cases hlen : pins.length > 2
    · simp only [hlen, if_true]; exact ⟨_, rfl⟩
    · simp only [hlen, if_false]
      have hrp : ∀ (t1 t2 : List Event),
          resolvePins { h with trace := t1 } 0 pins [none, none] =
          resolvePins { h with trace := t2 } 0 pins [none, none] := by
        intro t1 t2
        generalize ([none, none] : List (Option Nat)) = p
        generalize (0 : Nat) = i
        induction pins generalizing i p with
        | nil => simp [resolvePins]
        | cons q qs ihq =>
          simp only [resolvePins]
          by_cases hi : 2 ≤ i
          · simp [hi]
          · simp only [hi, if_false]
            cases h.ByName q with
            | none => rfl
            | some id => exact ihq (by simp at hlen ⊢; omega) _ _
      rw [hrp (tr ++ [Event.readSamples]) (h.trace ++ [Event.readSamples])]
      cases resolvePins { h with trace := h.trace ++ [.readSamples] } 0 pins [none, none] with
      | stop o => exact ⟨_, rfl⟩
      | done p =>
        simp only []
        cases h.Now with
        | nil => exact ⟨_, rfl⟩
        | cons start rest =>
          simp only []
          exact slotsGeneric_trace _ _ _ _ _ _ _
            { h with Now := rest, trace := h.trace ++ [.readSamples] } _ _

/-- C6 (counterexample). Three requests with a name that does not start with
`GPIO` on which `readSamplesBCM` does not return what `readSamples` returns:
an earlier name `GPIOX` (parse error against "unavailable"), ten names
("maximum 8 pins" against "maximum 2 pins"), and a resolution of 1.5µs
("rounded to 1µs" against "rounded to 10µs"). -/
theorem readSamplesBCM_not_always_generic :
    ((readSamplesBCM (fakeHost [0] [0] fun _ => 0) ⟨10000, [7]⟩ ["GPIOX", "FOO"]).out
        = .err (.failedToProcess "GPIOX") ∧
      (readSamples (fakeHost [0] [0] fun _ => 0) ⟨10000, [7]⟩ ["GPIOX", "FOO"]).out
        = .err (.unavailable "GPIOX")) ∧
    ((readSamplesBCM (fakeHost [0] [0] fun _ => 0) ⟨10000, [7]⟩
        ["HIGH", "HIGH", "HIGH", "HIGH", "HIGH", "HIGH", "HIGH", "HIGH", "HIGH", "HIGH"]).out
        = .err .max8 ∧
      (readSamples (fakeHost [0] [0] fun _ => 0) ⟨10000, [7]⟩
        ["HIGH", "HIGH", "HIGH", "HIGH", "HIGH", "HIGH", "HIGH", "HIGH", "HIGH", "HIGH"]).out
        = .err .max2) ∧
    ((readSamplesBCM (fakeHost [0] [0] fun _ => 0) ⟨1500, [7]⟩ ["HIGH"]).out
        = .err (.rounded1us 1500) ∧
      (readSamples (fakeHost [0] [0] fun _ => 0) ⟨1500, [7]⟩ ["HIGH"]).out
        = .err (.rounded10us 1500)) := by
  decide

/-- C6 (amended). With a resolution that is a multiple of 1µs and at most 9
names: if some name does not start with `GPIO` and every name before the first
such name is `GPIO` followed by an integer, `readSamplesBCM` hands the whole
request to `readSamples` and returns its result, buffer and world (the ghost
log apart); and for every list in which all names start with `GPIO`, whatever
the resolution and length, `readSamples` is never entered. -/
theorem readSamplesBCM_fallback (h : Host) (b : BitStreamLSB) (pins : List String) :
    (∀ pre q post, pins = pre ++ q :: post →
      (∀ p ∈ pre, HasPrefix p "GPIO" = true ∧ (Atoi (p.toList.drop 4)).isSome = true) →
      HasPrefix q "GPIO" = false → b.Res.tmod Microsecond = 0 → pins.length ≤ 9 →
      readSamplesBCM h b pins =
        readSamples { h with trace := h.trace ++ [.readSamplesBCM] } b pins ∧
      ∃ tr, readSamplesBCM h b pins =
        ⟨(readSamples h b pins).out, { (readSamples h b pins).host with trace := tr },
         (readSamples h b pins).bits⟩) ∧
    ((∀ p ∈ pins, HasPrefix p "GPIO" = true) → Event.readSamples ∉ h.trace →
      Event.readSamples ∉ (readSamplesBCM h b pins).host.trace) := by
  constructor
  · intro pre q post hpins hpre hq hres hlen
    have hlen' : ¬ pins.length > 9 := by omega
    have hscan : scanPins [] pins = .generic := by
      rw [hpins]; exact scanPins_generic pre q post hpre hq []
    have heq : readSamplesBCM h b pins =
        readSamples { h with trace := h.trace ++ [.readSamplesBCM] } b pins := by
      simp only [readSamplesBCM, hres, hlen', hscan, ne_eq, not_true_eq_false, if_false]
    refine ⟨heq, ?_⟩
    rw [heq]
    exact readSamples_trace h b pins _
  · intro hall hfresh
    have hfresh' : Event.readSamples ∉ h.trace ++ [Event.readSamplesBCM] := by
      simpa using hfresh
    simp only [readSamplesBCM]
    by_cases hres : b.Res.tmod Microsecond = 0
    swap
    · simpa [hres] using hfresh
    · simp only [hres, ne_eq, not_true_eq_false, if_false]
      by_cases hlen : pins.length > 9
      · simpa [hlen] using hfresh
      · simp only [hlen, if_false]
        cases hscan : scanPins [] pins with
        | failed p => simpa using hfresh
        | generic => exact absurd hscan (scanPins_no_fallback pins hall [])
        | nums num =>
          simp only []
          cases fillTables 0 num Tables.zero with
          | stop o => simpa using hfresh
          | done T =>
            simp only []
            cases h.ReadTime with
            | nil => simpa using hfresh
            | cons start rest =>
              simp only []
              apply slotsBCM_trace
              simpa using hfresh

/-- Witness of `readSamplesBCM_fallback`: `[GPIO1, HIGH]` falls back, `[GPIO1]`
does not. -/
theorem readSamplesBCM_fallback_witness :
    (["GPIO1", "HIGH"] = ["GPIO1"] ++ "HIGH" :: [] ∧
      (∀ p ∈ ["GPIO1"],
        HasPrefix p "GPIO" = true ∧ (Atoi (p.toList.drop 4)).isSome = true) ∧
      HasPrefix "HIGH" "GPIO" = false ∧ (10000 : Int).tmod Microsecond = 0 ∧
      ["GPIO1", "HIGH"].length ≤ 9 ∧
      readSamplesBCM (fakeHost [0] [0, 10000] fun _ => 0) ⟨10000, [7]⟩ ["GPIO1", "HIGH"] =
        readSamples
          { fakeHost [0] [0, 10000] (fun _ => 0) with trace := [] ++ [.readSamplesBCM] }
          ⟨10000, [7]⟩ ["GPIO1", "HIGH"]) ∧
    ((∀ p ∈ ["GPIO1"], HasPrefix p "GPIO" = true) ∧
      Event.readSamples ∉ (fakeHost [0, 1000] [] fun _ => 0).trace ∧
      Event.readSamples ∉
        (readSamplesBCM (fakeHost [0, 1000] [] fun _ => 0) ⟨1000, [7]⟩ ["GPIO1"]).host.trace) :=
  ⟨⟨rfl, by decide, by decide, by decide, by decide,
    ((readSamplesBCM_fallback (fakeHost [0] [0, 10000] fun _ => 0) ⟨10000, [7]⟩
      ["GPIO1", "HIGH"]).1 ["GPIO1"] "HIGH" [] rfl (by decide) (by decide) (by decide)
      (by decide)).1⟩,
   ⟨by decide, by decide,
    (readSamplesBCM_fallback (fakeHost [0, 1000] [] fun _ => 0) ⟨1000, [7]⟩ ["GPIO1"]).2
      (by decide) (by decide)⟩⟩
/-- A completed capture of the slot loop of `readSamples` with two different
pin objects: every slot holds one reading of each, taken in slot order. -/
theorem slotsGeneric_two (a c : Nat) (hne : a ≠ c) (delta acc : Int) :
    ∀ (m i : Nat) (next : Int) (h : Host) (bits : List Nat),
      i + m ≤ bits.length →
      (slotsGeneric (some a) (some c) delta acc m i next h bits).out = .ok →
      (slotsGeneric (some a) (some c) delta acc m i next h bits).bits.length = bits.length ∧
      (slotsGeneric (some a) (some c) delta acc m i next h bits).host.Level = h.Level ∧
      (slotsGeneric (some a) (some c) delta acc m i next h bits).host.reads a
        = h.reads a + m ∧
      (slotsGeneric (some a) (some c) delta acc m i next h bits).host.reads c
        = h.reads c + m ∧
      (∀ o, o ≠ a → o ≠ c →
        (slotsGeneric (some a) (some c) delta acc m i next h bits).host.reads o = h.reads o) ∧
      (∀ j, j < i →
        (slotsGeneric (some a) (some c) delta acc m i next h bits).bits[j]? = bits[j]?) ∧
      (∀ j, j < m →
        (slotsGeneric (some a) (some c) delta acc m i next h bits).bits[i + j]? =
          some ((if h.Level a (h.reads a + j) then 1 else 0) |||
                (if h.Level c (h.reads c + j) then 2 else 0))) := by
  intro m
  induction m with
  | zero =>
    intro i next h bits _ _
    simp [slotsGeneric]
  | succ m ih =>
    intro i next h bits hlen hok
    simp only [slotsGeneric] at hok ⊢
    cases hw : waitGeneric delta acc next h.Now with
    | starved => simp [hw] at hok
    | overrun e rest => simp [hw] at hok
    | tick t n' rest =>
      simp only [hw, Host.Read] at hok ⊢
      have hca : c ≠ a := fun hh => hne hh.symm
      simp only [Function.update_noteq hca] at hok ⊢
      obtain ⟨h1, h2, h3, h4, h5, h6, h7⟩ := ih (i + 1) n' _ _ (by simp; omega) hok
      refine ⟨by rw [h1]; simp, h2, ?_, ?_, ?_, ?_, ?_⟩
      · rw [h3]; simp [Function.update_noteq hne]; omega
      · rw [h4]; simp; omega
      · intro o hoa hoc
        rw [h5 o hoa hoc]; simp [Function.update_noteq hoa, Function.update_noteq hoc]
      · intro j hj
        rw [h6 j (by omega)]
        exact List.getElem?_set_ne (by omega)
      · intro j hj
        cases j with
        | zero =>
          simp only [Nat.add_zero]
          rw [h6 i (by omega), List.getElem?_set_self (by omega)]
          by_cases hA : h.Level a (h.reads a) = true <;>
            by_cases hC : h.Level c (h.reads c) = true <;> simp [hA, hC]
        | succ j =>
          have := h7 j (by omega)
          have e1 : i + (j + 1) = i + 1 + j := by omega
          rw [e1, this]
          simp [Function.update_noteq hne, Nat.add_assoc, Nat.add_comm 1 j]

/-- A completed capture of the slot loop of `readSamples` with one pin. -/
theorem slotsGeneric_one (a : Nat) (delta acc : Int) :
    ∀ (m i : Nat) (next : Int) (h : Host) (bits : List Nat),
      i + m ≤ bits.length →
      (slotsGeneric (some a) none delta acc m i next h bits).out = .ok →
      (slotsGeneric (some a) none delta acc m i next h bits).bits.length = bits.length ∧
      (slotsGeneric (some a) none delta acc m i next h bits).host.Level = h.Level ∧
      (slotsGeneric (some a) none delta acc m i next h bits).host.reads a
        = h.reads a + m ∧
      (∀ o, o ≠ a →
        (slotsGeneric (some a) none delta acc m i next h bits).host.reads o = h.reads o) ∧
      (∀ j, j < i →
        (slotsGeneric (some a) none delta acc m i next h bits).bits[j]? = bits[j]?) ∧
      (∀ j, j < m →
        (slotsGeneric (some a) none delta acc m i next h bits).bits[i + j]? =
          some (if h.Level a (h.reads a + j) then 1 else 0)) := by
  intro m
  induction m with
  | zero =>
    intro i next h bits _ _
    simp [slotsGeneric]
  | succ m ih =>
    intro i next h bits hlen hok
    simp only [slotsGeneric] at hok ⊢
    cases hw : waitGeneric delta acc next h.Now with
    | starved => simp [hw] at hok
    | overrun e rest => simp [hw] at hok
    | tick t n' rest =>
      simp only [hw, Host.Read] at hok ⊢
      obtain ⟨h1, h2, h3, h5, h6, h7⟩ := ih (i + 1) n' _ _ (by simp; omega) hok
      refine ⟨by rw [h1]; simp, h2, ?_, ?_, ?_, ?_⟩
      · rw [h3]; simp; omega
      · intro o hoa
        rw [h5 o hoa]; simp [Function.update_noteq hoa]
      · intro j hj
        rw [h6 j (by omega)]
        exact List.getElem?_set_ne (by omega)
      · intro j hj
        cases j with
        | zero =>
          simp only [Nat.add_zero]
          rw [h6 i (by omega), List.getElem?_set_self (by omega)]
        | succ j =>
          have := h7 j (by omega)
          have e1 : i + (j + 1) = i + 1 + j := by omega
          rw [e1, this]
          simp [Nat.add_assoc, Nat.add_comm 1 j]

/-- The `square` fixture alternates: its `k`-th read returns the initial level
for even `k` and the opposite level for odd `k`. -/
theorem square_level (k : Nat) :
    ∀ s : square, square.level s k = if k % 2 = 0 then s.L else !s.L := by
  induction k with
  | zero => intro s; simp [square.level, square.Read]
  | succ k ih =>
    intro s
    simp only [square.level, ih, square.Read]
    rcases Nat.mod_two_eq_zero_or_one k with hk | hk
    · have : (k + 1) % 2 = 1 := by omega
      simp [hk, this]
    · have : (k + 1) % 2 = 0 := by omega
      simp [hk, this]

/-- Bit 0 of the byte composed from two levels is the first level. -/
theorem byte_bit0 (l0 l1 : Bool) :
    ((if l0 then 1 else 0) ||| (if l1 then 2 else 0) : Nat) % 2 = if l0 then 1 else 0 := by
  cases l0 <;> cases l1 <;> rfl

/-- Bit 0 of the byte made from one level is that level. -/
theorem byte_bit0_one (l0 : Bool) :
    ((if l0 then 1 else 0 : Nat)) % 2 = if l0 then 1 else 0 := by
  cases l0 <;> rfl

/-- C7 (counterexample). The request `[SQUARE, SQUARE]` names one pin object
twice: it is read twice per slot (four reads for two slots) and, the fixture
flipping on every read, both slots hold `0b10`; bit 0 stays 0 instead of
alternating. The request `[SQUARE]` gives 0, 1. -/
theorem readSamples_same_pin_twice :
    (readSamples (fakeHost [] [0, 10000, 20000] fun _ => 0) ⟨10000, [7, 7]⟩
      ["SQUARE", "SQUARE"]).out = .ok ∧
    (readSamples (fakeHost [] [0, 10000, 20000] fun _ => 0) ⟨10000, [7, 7]⟩
      ["SQUARE", "SQUARE"]).bits = [2, 2] ∧
    (readSamples (fakeHost [] [0, 10000, 20000] fun _ => 0) ⟨10000, [7, 7]⟩
      ["SQUARE", "SQUARE"]).host.reads 0 = 4 ∧
    (readSamples (fakeHost [] [0, 10000, 20000] fun _ => 0) ⟨10000, [7, 7]⟩
      ["SQUARE"]).bits = [0, 1] := by
  decide

/-- C7 (amended). In `readSamples`, for a request of one resolved pin, or of two
names resolving to two different pin objects, and a capture that completes:
the buffer keeps its length, each pin object has been read once per slot (its
read count grew by the number of slots, no other pin was read), and the byte
of slot `j` is `(j-th reading of pin 0 ? 1 : 0) | (j-th reading of pin 1 ? 2 : 0)`,
without the second term for one pin. So when pin 0 behaves as a `square`
fixture, bit 0 of slot `j` is the fixture's alternating level. -/
theorem readSamples_bytes (h : Host) (b : BitStreamLSB) (pins : List String)
    (hres : b.Res.tmod (10 * Microsecond) = 0)
    (hok : (readSamples h b pins).out = .ok) :
    (∀ a ia, pins = [a] → h.ByName a = some ia →
      (readSamples h b pins).bits.length = b.Bits.length ∧
      (readSamples h b pins).host.reads ia = h.reads ia + b.Bits.length ∧
      (∀ o, o ≠ ia → (readSamples h b pins).host.reads o = h.reads o) ∧
      (∀ j, j < b.Bits.length →
        (readSamples h b pins).bits[j]? =
          some (if h.Level ia (h.reads ia + j) then 1 else 0)) ∧
      (∀ s : square, (∀ k, h.Level ia k = square.level s k) →
        ∀ j, j < b.Bits.length → ∃ x, (readSamples h b pins).bits[j]? = some x ∧
          x % 2 = if (if (h.reads ia + j) % 2 = 0 then s.L else !s.L) then 1 else 0)) ∧
    (∀ a c ia ic, pins = [a, c] → h.ByName a = some ia → h.ByName c = some ic → ia ≠ ic →
      (readSamples h b pins).bits.length = b.Bits.length ∧
      (readSamples h b pins).host.reads ia = h.reads ia + b.Bits.length ∧
      (readSamples h b pins).host.reads ic = h.reads ic + b.Bits.length ∧
      (∀ o, o ≠ ia → o ≠ ic → (readSamples h b pins).host.reads o = h.reads o) ∧
      (∀ j, j < b.Bits.length →
        (readSamples h b pins).bits[j]? =
          some ((if h.Level ia (h.reads ia + j) then 1 else 0) |||
                (if h.Level ic (h.reads ic + j) then 2 else 0))) ∧
      (∀ s : square, (∀ k, h.Level ia k = square.level s k) →
        ∀ j, j < b.Bits.length → ∃ x, (readSamples h b pins).bits[j]? = some x ∧
          x % 2 = if (if (h.reads ia + j) % 2 = 0 then s.L else !s.L) then 1 else 0)) := by
  constructor
  · intro a ia hpins ha
    subst hpins
    have hrun : ∃ start rest h1, h.Now = start :: rest ∧
        readSamples h b [a] =
          slotsGeneric (some ia) none b.Res (b.Res.tdiv 100) b.Bits.length 0
            (start + b.Res) h1 b.Bits ∧ h1.Level = h.Level ∧ h1.reads = h.reads := by
      cases hnow : h.Now with
      | nil => simp [readSamples, hres, resolvePins, ha, hnow] at hok
      | cons start rest =>
        exact ⟨start, rest, { h with Now := rest, trace := h.trace ++ [Event.readSamples] },
          rfl, by simp [readSamples, hres, resolvePins, ha, hnow], rfl, rfl⟩
    obtain ⟨start, rest, h1, -, hrun, hL, hR⟩ := hrun
    rw [hrun] at hok ⊢
    obtain ⟨k1, -, k3, k5, -, k7⟩ :=
      slotsGeneric_one ia b.Res (b.Res.tdiv 100) b.Bits.length 0 (start + b.Res) h1 b.Bits
        (by omega) hok
    simp only [Nat.zero_add, hL, hR] at k3 k5 k7
    refine ⟨k1, k3, k5, k7, ?_⟩
    intro s hs j hj
    refine ⟨_, k7 j hj, ?_⟩
    rw [byte_bit0_one, hs, square_level]
  · intro a c ia ic hpins ha hc hne
    subst hpins
    have hrun : ∃ start rest h1, h.Now = start :: rest ∧
        readSamples h b [a, c] =
          slotsGeneric (some ia) (some ic) b.Res (b.Res.tdiv 100) b.Bits.length 0
            (start + b.Res) h1 b.Bits ∧ h1.Level = h.Level ∧ h1.reads = h.reads := by
      cases hnow : h.Now with
      | nil => simp [readSamples, hres, resolvePins, ha, hc, hnow] at hok
      | cons start rest =>
        exact ⟨start, rest, { h with Now := rest, trace := h.trace ++ [Event.readSamples] },
          rfl, by simp [readSamples, hres, resolvePins, ha, hc, hnow], rfl, rfl⟩
    obtain ⟨start, rest, h1, -, hrun, hL, hR⟩ := hrun
    rw [hrun] at hok ⊢
    obtain ⟨k1, -, k3, k4, k5, -, k7⟩ :=
      slotsGeneric_two ia ic hne b.Res (b.Res.tdiv 100) b.Bits.length 0 (start + b.Res)
        h1 b.Bits (by omega) hok
    simp only [Nat.zero_add, hL, hR] at k3 k4 k5 k7
    refine ⟨k1, k3, k4, k5, k7, ?_⟩
    intro s hs j hj
    refine ⟨_, k7 j hj, ?_⟩
    rw [byte_bit0, hs, square_level]

/-- Witness of `readSamples_bytes`: the request `[SQUARE, HIGH]` at 10µs over two
slots, and the request `[SQUARE]`. -/
theorem readSamples_bytes_witness :
    ((10000 : Int).tmod (10 * Microsecond) = 0 ∧
      (readSamples (fakeHost [] [0, 10000, 20000] fun _ => 0) ⟨10000, [7, 7]⟩
        ["SQUARE", "HIGH"]).out = .ok ∧
      (readSamples (fakeHost [] [0, 10000, 20000] fun _ => 0) ⟨10000, [7, 7]⟩
        ["SQUARE", "HIGH"]).bits.length = 2 ∧
      (readSamples (fakeHost [] [0, 10000, 20000] fun _ => 0) ⟨10000, [7, 7]⟩
        ["SQUARE", "HIGH"]).host.reads 0 = 0 + 2 ∧
      (readSamples (fakeHost [] [0, 10000, 20000] fun _ => 0) ⟨10000, [7, 7]⟩
        ["SQUARE", "HIGH"]).host.reads 1 = 0 + 2) ∧
    ((readSamples (fakeHost [] [0, 10000, 20000] fun _ => 0) ⟨10000, [7, 7]⟩
        ["SQUARE"]).out = .ok ∧
      (readSamples (fakeHost [] [0, 10000, 20000] fun _ => 0) ⟨10000, [7, 7]⟩
        ["SQUARE"]).host.reads 0 = 0 + 2) :=
  have w2 := (readSamples_bytes (fakeHost [] [0, 10000, 20000] fun _ => 0) ⟨10000, [7, 7]⟩
    ["SQUARE", "HIGH"] (by decide) (by decide)).2 "SQUARE" "HIGH" 0 1 rfl (by decide)
    (by decide) (by decide)
  have w1 := (readSamples_bytes (fakeHost [] [0, 10000, 20000] fun _ => 0) ⟨10000, [7, 7]⟩
    ["SQUARE"] (by decide) (by decide)).1 "SQUARE" 0 rfl (by decide)
  ⟨⟨by decide, by decide, w2.1, w2.2.1, w2.2.2.1⟩, by decide, w1.2.1⟩
/-- The busy loop of `readSamples` consumes at least one reading when it ends
in a tick. -/
theorem waitGeneric_rest (delta a next : Int) :
    ∀ (ts : List Int) (t n' : Int) (rest : List Int),
      waitGeneric delta a next ts = .tick t n' rest → rest.length < ts.length := by
  intro ts
  induction ts with
  | nil => intro t n' rest hw; simp [waitGeneric] at hw
  | cons u us ih =>
    intro t n' rest hw
    simp only [waitGeneric] at hw
    split at hw
    · simp only [Wait.tick.injEq] at hw; obtain ⟨-, -, rfl⟩ := hw; simp
    · split at hw
      · split at hw
        · simp at hw
        · simp only [Wait.tick.injEq] at hw; obtain ⟨-, -, rfl⟩ := hw; simp
      · have := ih t n' rest hw
        simp; omega

/-- The slot loop of `readSamples` never gives clock readings back. -/
theorem slotsGeneric_now (p0 p1 : Option Nat) (delta a : Int) :
    ∀ (m i : Nat) (next : Int) (h : Host) (bits : List Nat),
      (slotsGeneric p0 p1 delta a m i next h bits).host.Now.length ≤ h.Now.length := by
  intro m
  induction m with
  | zero => intro i next h bits; simp [slotsGeneric]
  | succ m ih =>
    intro i next h bits
    simp only [slotsGeneric]
    cases hw : waitGeneric delta a next h.Now with
    | starved => simp
    | overrun e rest =>
      simp only []
      cases hn : h.Now with
      | nil => simp [hn, waitGeneric] at hw
      | cons u us =>
        -- the readings left after an overrun are a suffix of the readings
        have hsuf : ∀ (ts : List Int) (e : Int) (rest : List Int),
            waitGeneric delta a next ts = .overrun e rest → rest.length < ts.length := by
          intro ts
          induction ts with
          | nil => intro e rest hw; simp [waitGeneric] at hw
          | cons u us ih2 =>
            intro e rest hw
            simp only [waitGeneric] at hw
            split at hw
            · simp at hw
            · split at hw
              · split at hw
                · simp only [Wait.overrun.injEq] at hw; obtain ⟨-, rfl⟩ := hw; simp
                · simp at hw
              · have := ih2 e rest hw
                simp; omega
        have := hsuf h.Now e rest hw
        rw [hn] at this
        exact Nat.le_of_lt this
    | tick t n' rest =>
      have hlt := waitGeneric_rest delta a next h.Now t n' rest hw
      simp only []
      cases p0 with
      | none => simp; omega
      | some x =>
        cases p1 with
        | none =>
          simp only [Host.Read]
          refine le_trans (ih _ _ _ _) ?_
          simp; omega
        | some y =>
          simp only [Host.Read]
          refine le_trans (ih _ _ _ _) ?_
          simp; omega

/-- C8. `readSamples` with a resolution that is a multiple of 10µs: with more
than 2 names it returns "maximum 2 pins", and with at most 2 names of which
some does not resolve it returns "unavailable" for the first such name in
request order, both times with the clock, the pins and the buffer untouched;
with at most 2 names that all resolve it takes the first clock reading and
runs the slot loop on the resolved pins. So the timing loop is started (a
clock reading is taken) if and only if there are at most 2 names and all of
them resolve. -/
theorem readSamples_validation (h : Host) (b : BitStreamLSB) (pins : List String)
    (hres : b.Res.tmod (10 * Microsecond) = 0) :
    (2 < pins.length →
      readSamples h b pins =
        ⟨.err .max2, { h with trace := h.trace ++ [.readSamples] }, b.Bits⟩) ∧
    (pins.length ≤ 2 → ∀ q, pins.find? (fun n => (h.ByName n).isNone) = some q →
      readSamples h b pins =
        ⟨.err (.unavailable q), { h with trace := h.trace ++ [.readSamples] }, b.Bits⟩) ∧
    (pins.length ≤ 2 → (∀ q ∈ pins, (h.ByName q).isSome = true) →
      ∀ start rest, h.Now = start :: rest →
      readSamples h b pins =
        slotsGeneric (pins[0]?.bind h.ByName) (pins[1]?.bind h.ByName) b.Res
          (b.Res.tdiv 100) b.Bits.length 0 (start + b.Res)
          { h with Now := rest, trace := h.trace ++ [.readSamples] } b.Bits) ∧
    (∀ start rest, h.Now = start :: rest →
      ((readSamples h b pins).host.Now.length < h.Now.length ↔
        pins.length ≤ 2 ∧ ∀ q ∈ pins, (h.ByName q).isSome = true)) := by
  have p1 : 2 < pins.length →
      readSamples h b pins =
        ⟨.err .max2, { h with trace := h.trace ++ [.readSamples] }, b.Bits⟩ := by
    intro hlen
    simp [readSamples, hres, hlen]
  have p2 : pins.length ≤ 2 → ∀ q, pins.find? (fun n => (h.ByName n).isNone) = some q →
      readSamples h b pins =
        ⟨.err (.unavailable q), { h with trace := h.trace ++ [.readSamples] }, b.Bits⟩ := by
    intro hlen q hq
    rcases pins with _ | ⟨a, _ | ⟨c, _ | ⟨d, tl⟩⟩⟩
    · simp at hq
    · cases ha : h.ByName a with
      | none =>
        simp [List.find?, ha] at hq
        subst hq
        simp [readSamples, hres, resolvePins, ha]
      | some ia => simp [List.find?, ha] at hq
    · cases ha : h.ByName a with
      | none =>
        simp [List.find?, ha] at hq
        subst hq
        simp [readSamples, hres, resolvePins, ha]
      | some ia =>
        cases hc : h.ByName c with
        | none =>
          simp [List.find?, ha, hc] at hq
          subst hq
          simp [readSamples, hres, resolvePins, ha, hc]
        | some ic => simp [List.find?, ha, hc] at hq
    · simp at hlen
  have p3 : pins.length ≤ 2 → (∀ q ∈ pins, (h.ByName q).isSome = true) →
      ∀ start rest, h.Now = start :: rest →
      readSamples h b pins =
        slotsGeneric (pins[0]?.bind h.ByName) (pins[1]?.bind h.ByName) b.Res
          (b.Res.tdiv 100) b.Bits.length 0 (start + b.Res)
          { h with Now := rest, trace := h.trace ++ [.readSamples] } b.Bits := by
    intro hlen hall start rest hnow
    rcases pins with _ | ⟨a, _ | ⟨c, _ | ⟨d, tl⟩⟩⟩
    · simp [readSamples, hres, resolvePins, hnow]
    · obtain ⟨ia, ha⟩ := Option.isSome_iff_exists.mp (hall a (by simp))
      simp [readSamples, hres, resolvePins, ha, hnow]
    · obtain ⟨ia, ha⟩ := Option.isSome_iff_exists.mp (hall a (by simp))
      obtain ⟨ic, hc⟩ := Option.isSome_iff_exists.mp (hall c (by simp))
      simp [readSamples, hres, resolvePins, ha, hc, hnow]
    · simp at hlen
  refine ⟨p1, p2, p3, ?_⟩
  intro start rest hnow
  constructor
  · intro hlt
    by_cases hlen : pins.length ≤ 2
    · refine ⟨hlen, ?_⟩
      by_contra hnot
      push_neg at hnot
      obtain ⟨q, hq, hqn⟩ := hnot
      have hfind : (pins.find? (fun n => (h.ByName n).isNone)).isSome = true := by
        rw [List.find?_isSome]
        exact ⟨q, hq, by simpa using hqn⟩
      obtain ⟨q', hq'⟩ := Option.isSome_iff_exists.mp hfind
      rw [p2 hlen q' hq'] at hlt
      simp at hlt
    · rw [p1 (by omega)] at hlt
      simp at hlt
  · rintro ⟨hlen, hall⟩
    rw [p3 hlen hall start rest hnow]
    refine lt_of_le_of_lt (slotsGeneric_now _ _ _ _ _ _ _ _ _) ?_
    simp [hnow]

/-- Witness of `readSamples_validation`: a 10µs resolution; three names, an
unknown second name, and two known names. -/
theorem readSamples_validation_witness :
    (10000 : Int).tmod (10 * Microsecond) = 0 ∧
    readSamples (fakeHost [] [0, 10000] fun _ => 0) ⟨10000, [7]⟩ ["HIGH", "LOW", "SQUARE"] =
      ⟨.err .max2,
       { fakeHost [] [0, 10000] (fun _ => 0) with trace := [] ++ [.readSamples] }, [7]⟩ ∧
    readSamples (fakeHost [] [0, 10000] fun _ => 0) ⟨10000, [7]⟩ ["HIGH", "NOPE"] =
      ⟨.err (.unavailable "NOPE"),
       { fakeHost [] [0, 10000] (fun _ => 0) with trace := [] ++ [.readSamples] }, [7]⟩ ∧
    (readSamples (fakeHost [] [0, 10000] fun _ => 0) ⟨10000, [7]⟩
        ["HIGH", "LOW"]).host.Now.length < [(0 : Int), 10000].length :=
  ⟨by decide,
   (readSamples_validation (fakeHost [] [0, 10000] fun _ => 0) ⟨10000, [7]⟩
      ["HIGH", "LOW", "SQUARE"] (by decide)).1 (by decide),
   (readSamples_validation (fakeHost [] [0, 10000] fun _ => 0) ⟨10000, [7]⟩
      ["HIGH", "NOPE"] (by decide)).2.1 (by decide) "NOPE" (by decide),
   ((readSamples_validation (fakeHost [] [0, 10000] fun _ => 0) ⟨10000, [7]⟩
      ["HIGH", "LOW"] (by decide)).2.2.2 0 [10000] rfl).2 ⟨by decide, by decide⟩⟩
/-- Inside the `int64` range nothing wraps. -/
theorem wrap64_eq (x : Int) (h1 : -(2 ^ 63 : Int) ≤ x) (h2 : x < (2 ^ 63 : Int)) :
    wrap64 x = x := by
  unfold wrap64
  omega

/-- Inside the `int64` range `Time.Sub` is the exact difference. -/
theorem sat64_eq (x : Int) (h1 : -(2 ^ 63 : Int) ≤ x) (h2 : x < (2 ^ 63 : Int)) :
    sat64 x = x := by
  unfold sat64
  have e1 : ¬ x < -(2 ^ 63 : Int) := by omega
  have e2 : ¬ (2 ^ 63 : Int) - 1 < x := by omega
  simp only [e1, e2, if_false]

/-- C5 (failing input). Resolution 9000000000000000000ns, one slot, request
`[GPIO0]`, clock readings 200000000000000000 and then 9200000000000000001: the
deadline is 9200000000000000000 and the reading is 1ns after it, far inside
the tolerance `Res/100 = 90000000000000000`, so no slot has a first reading
later than deadline plus tolerance (`lateSlot` finds none). But
`next+acceptable` exceeds the largest `int64` and wraps to a negative number,
the test `t <= next+acceptable` fails, and `readSamplesBCM` returns an overrun
by 1ns, without reading the bank or writing the slot. -/
theorem readSamplesBCM_overrun_inside_tolerance :
    (9000000000000000000 : Int) < 2 ^ 63 ∧
    (9000000000000000000 : Int).tmod Microsecond = 0 ∧
    (9200000000000000001 : Int) < 2 ^ 63 ∧
    (9200000000000000001 : Int) ≤
      200000000000000000 + 9000000000000000000 + (9000000000000000000 : Int).tdiv 100 ∧
    lateSlot 9000000000000000000 ((9000000000000000000 : Int).tdiv 100) 1
      (200000000000000000 + 9000000000000000000) [9200000000000000001] = none ∧
    wrap64 (9200000000000000000 + (9000000000000000000 : Int).tdiv 100)
      = -9156744073709551616 ∧
    (readSamplesBCM (fakeHost [200000000000000000, 9200000000000000001] [] fun _ => 1)
      ⟨9000000000000000000, [7]⟩ ["GPIO0"]).out = .err (.overrun 1) ∧
    (readSamplesBCM (fakeHost [200000000000000000, 9200000000000000001] [] fun _ => 1)
      ⟨9000000000000000000, [7]⟩ ["GPIO0"]).bits = [7] ∧
    (readSamplesBCM (fakeHost [200000000000000000, 9200000000000000001] [] fun _ => 1)
      ⟨9000000000000000000, [7]⟩ ["GPIO0"]).host.bankReads = 0 := by
  decide

/-- C10. The two busy loops are not the same function: with the positive
resolution 9000000000000000000ns (a multiple of 10µs inside `int64`), the
deadline 9200000000000000000 and the single reading 9200000000000000001, which
is 1ns late and inside the tolerance, the loop of `readSamples` accepts the
reading and advances the deadline by a full resolution, while the loop of
`readSamplesBCM`, whose `next+acceptable` wraps around, reports an overrun by
1ns. -/
theorem wait_loops_disagree :
    ∃ (Res next : Int) (ts : List Int),
      0 < Res ∧ Res < 2 ^ 63 ∧ Res.tmod (10 * Microsecond) = 0 ∧
      0 ≤ next ∧ next < 2 ^ 63 ∧ (∀ t ∈ ts, 0 ≤ t ∧ t < 2 ^ 63) ∧
      (∃ t rest, waitGeneric Res (Res.tdiv 100) next ts = .tick t (next + Res) rest ∧
        next ≤ t ∧ t ≤ next + Res.tdiv 100) ∧
      (∃ e rest, waitBCM Res (Res.tdiv 100) next ts = .overrun e rest) :=
  ⟨9000000000000000000, 9200000000000000000, [9200000000000000001],
   by decide, by decide, by decide, by decide, by decide, by decide,
   ⟨9200000000000000001, [], by decide, by decide, by decide⟩,
   ⟨1, [], by decide⟩⟩
/-- As long as nothing leaves the `int64` range (the tolerance is not negative,
`next+acceptable` and `next+delta` fit, and the readings and the deadline are
not negative), the two busy loops end in the same way. -/
theorem wait_agree_in_range (delta a next : Int) (ha : 0 ≤ a) (hn : 0 ≤ next)
    (hna : next + a < 2 ^ 63)
    (hnd1 : -(2 ^ 63 : Int) ≤ next + delta) (hnd2 : next + delta < 2 ^ 63)
    (ts : List Int) (hts : ∀ t ∈ ts, 0 ≤ t ∧ t < 2 ^ 63) :
    waitBCM delta a next ts = waitGeneric delta a next ts := by
  induction ts with
  | nil => simp [waitBCM, waitGeneric]
  | cons t rest ih =>
    have ht := hts t (by simp)
    have hrest : ∀ u ∈ rest, 0 ≤ u ∧ u < 2 ^ 63 := fun u hu => hts u (by simp [hu])
    have w1 : wrap64 (next + a) = next + a := wrap64_eq _ (by omega) hna
    have w2 : wrap64 (next + delta) = next + delta := wrap64_eq _ hnd1 hnd2
    have w3 : wrap64 (t - next) = t - next := wrap64_eq _ (by omega) (by omega)
    have w4 : sat64 (t - next) = t - next := sat64_eq _ (by omega) (by omega)
    simp only [waitBCM, waitGeneric, w1, w2, w3, w4]
    by_cases h1 : t = next
    · have h2 : t ≥ next ∧ t ≤ next + a := by omega
      simp [h1, h2]
      omega
    · by_cases h3 : t > next
      · by_cases h4 : t > next + a
        · have h2 : ¬ (t ≥ next ∧ t ≤ next + a) := by omega
          simp [h1, h2, h3, h4]
        · have h2 : t ≥ next ∧ t ≤ next + a := by omega
          simp [h1, h2, h3, h4]
      · have h2 : ¬ (t ≥ next ∧ t ≤ next + a) := by omega
        simp only [h1, h2, h3, if_false]
        exact ih hrest

/-- The readings that `fromDeadline` keeps are readings of the list. -/
theorem fromDeadline_mem (d : Int) :
    ∀ (ts : List Int) (t : Int) (rest : List Int), fromDeadline d ts = t :: rest →
      ∀ u, u ∈ t :: rest → u ∈ ts := by
  intro ts
  induction ts with
  | nil => intro t rest h; simp [fromDeadline] at h
  | cons x xs ih =>
    intro t rest h u hu
    unfold fromDeadline at h
    by_cases hx : x < d
    · simp only [List.dropWhile_cons, hx, decide_True, if_true] at h
      exact List.mem_cons_of_mem _ (ih t rest h u hu)
    · simp only [List.dropWhile_cons, hx, decide_False] at h
      simp only [Bool.false_eq_true, if_false] at h
      rw [h]; exact hu

/-- With a tolerance that is not negative and nothing leaving the `int64`
range, the busy loop of `readSamplesBCM` decides on the first reading at or
after the deadline. -/
theorem waitBCM_eq (delta a next : Int) (ha : 0 ≤ a) (hn : 0 ≤ next)
    (hna : next + a < 2 ^ 63) (ts : List Int) (hts : ∀ t ∈ ts, 0 ≤ t ∧ t < 2 ^ 63) :
    waitBCM delta a next ts =
      match fromDeadline next ts with
      | [] => .starved
      | t :: rest =>
        if next + a < t then .overrun (t - next) rest
        else .tick t (wrap64 (next + delta)) rest := by
  induction ts with
  | nil => simp [waitBCM, fromDeadline]
  | cons t rest ih =>
    have ht := hts t (by simp)
    have hrest : ∀ u ∈ rest, 0 ≤ u ∧ u < 2 ^ 63 := fun u hu => hts u (by simp [hu])
    have w1 : wrap64 (next + a) = next + a := wrap64_eq _ (by omega) hna
    have w3 : wrap64 (t - next) = t - next := wrap64_eq _ (by omega) (by omega)
    unfold waitBCM fromDeadline
    rw [w1, w3]
    by_cases hlt : t < next
    · have h1 : ¬ (t ≥ next ∧ t ≤ next + a) := by omega
      have h2 : ¬ t > next := by omega
      simp only [h1, h2, if_false, List.dropWhile_cons, hlt, decide_True, if_true]
      exact ih hrest
    · by_cases hle : t ≤ next + a
      · have h1 : t ≥ next ∧ t ≤ next + a := by omega
        have h3 : ¬ next + a < t := by omega
        simp [h1, hlt, h3, List.dropWhile_cons]
      · have h1 : ¬ (t ≥ next ∧ t ≤ next + a) := by omega
        have h2 : t > next := by omega
        have h3 : next + a < t := by omega
        simp [h1, h2, hlt, h3, List.dropWhile_cons]
/-- As long as the schedule stays inside the `int64` range, the slot loop of
`readSamplesBCM` overruns exactly where `lateSlot` says. -/
theorem slotsBCM_late (T : Tables) (delta a : Int) (ha : 0 ≤ a) (hd : 0 ≤ delta) :
    ∀ (m i : Nat) (next : Int) (h : Host) (bits : List Nat),
      0 ≤ next →
      (∀ k : Nat, k < m → next + k * delta + a < 2 ^ 63) →
      (∀ t ∈ h.ReadTime, 0 ≤ t ∧ t < 2 ^ 63) →
      (lateSlot delta a m next h.ReadTime = none →
        ∀ e, (slotsBCM T delta a m i next h bits).out ≠ .err (.overrun e)) ∧
      (∀ k d t rest, lateSlot delta a m next h.ReadTime = some (k, d, t, rest) →
        (slotsBCM T delta a m i next h bits).out = .err (.overrun (t - d)) ∧
        a < t - d ∧
        (slotsBCM T delta a m i next h bits).host.ReadTime = rest ∧
        (slotsBCM T delta a m i next h bits).host.bankReads = h.bankReads + k ∧
        (slotsBCM T delta a m i next h bits).bits.length = bits.length ∧
        (slotsBCM T delta a m i next h bits).bits.drop (i + k) = bits.drop (i + k)) := by
  intro m
  induction m with
  | zero =>
    intro i next h bits _ _ _
    simp [lateSlot, slotsBCM]
  | succ m ih =>
    intro i next h bits hn hb hts
    have hb0 : next + a < 2 ^ 63 := by simpa using hb 0 (by omega)
    simp only [slotsBCM, lateSlot, waitBCM_eq delta a next ha hn hb0 h.ReadTime hts]
    cases hfd : fromDeadline next h.ReadTime with
    | nil => simp
    | cons t rest =>
      have hmem := fromDeadline_mem next h.ReadTime t rest hfd
      by_cases hlate : next + a < t
      · simp only [hlate, if_true]
        refine ⟨by simp, ?_⟩
        intro k d t' rest' heq
        simp only [Option.some.injEq, Prod.mk.injEq] at heq
        obtain ⟨rfl, rfl, rfl, rfl⟩ := heq
        simp
        omega
      · simp only [hlate, if_false]
        rcases Nat.eq_zero_or_pos m with hm | hm
        · subst hm
          simp [lateSlot, slotsBCM]
        · have hb1 : next + delta + a < 2 ^ 63 := by
            have := hb 1 (by omega)
            simpa using this
          have hw : wrap64 (next + delta) = next + delta :=
            wrap64_eq _ (by omega) (by omega)
          rw [hw]
          have IH := ih (i + 1) (next + delta)
            { h with ReadTime := rest, bankReads := h.bankReads + 1,
                     trace := h.trace ++ [.deadline next] ++ [.capture t] }
            (bits.set i (combine T (h.PinsRead0To31 h.bankReads % 2 ^ 32)))
            (by omega)
            (by
              intro k hk
              have := hb (k + 1) (by omega)
              push_cast at this
              linarith)
            (fun u hu => hts u (hmem u (List.mem_cons_of_mem _ hu)))
          refine ⟨?_, ?_⟩
          · intro hnone e
            apply IH.1
            cases hl : lateSlot delta a m (next + delta) rest with
            | none => rfl
            | some r => simp [hl] at hnone
          · intro k d t' rest' heq
            cases hl : lateSlot delta a m (next + delta) rest with
            | none => simp [hl] at heq
            | some r =>
              obtain ⟨k0, d0, t0, rest0⟩ := r
              simp only [hl, Option.map_some', Option.some.injEq, Prod.mk.injEq] at heq
              obtain ⟨rfl, rfl, rfl, rfl⟩ := heq
              obtain ⟨h1, h2, h3, h4, h5, h6⟩ := IH.2 k0 d0 t0 rest0 hl
              refine ⟨h1, h2, h3, ?_, ?_, ?_⟩
              · rw [h4]; simp only []; omega
              · rw [h5]; simp
              · have : i + (k0 + 1) = i + 1 + k0 := by omega
                rw [this, h6]
                simp only [List.drop_set]
                have hn' : ¬ i + 1 + k0 ≤ i := by omega
                simp [hn']
/-- The deadline `lateSlot` reports for slot `k` is `next + k * delta`. -/
theorem lateSlot_deadline (delta a : Int) :
    ∀ (m : Nat) (next : Int) (ts : List Int) (k : Nat) (d t : Int) (rest : List Int),
      lateSlot delta a m next ts = some (k, d, t, rest) → d = next + k * delta := by
  intro m
  induction m with
  | zero => intro next ts k d t rest heq; simp [lateSlot] at heq
  | succ m ih =>
    intro next ts k d t rest heq
    simp only [lateSlot] at heq
    cases hfd : fromDeadline next ts with
    | nil => simp [hfd] at heq
    | cons u us =>
      simp only [hfd] at heq
      by_cases hlate : next + a < u
      · simp only [hlate, if_true, Option.some.injEq, Prod.mk.injEq] at heq
        obtain ⟨rfl, rfl, rfl, rfl⟩ := heq
        simp
      · simp only [hlate, if_false] at heq
        cases hl : lateSlot delta a m (next + delta) us with
        | none => simp [hl] at heq
        | some r =>
          obtain ⟨k0, d0, t0, rest0⟩ := r
          simp only [hl, Option.map_some', Option.some.injEq, Prod.mk.injEq] at heq
          obtain ⟨rfl, rfl, rfl, rfl⟩ := heq
          have := ih (next + delta) us k0 d0 t0 rest0 hl
          rw [this]; push_cast; ring

/-- Inside the `int64` range the overrun of `readSamplesBCM` is the one the
comment in the source describes. With a positive resolution, clock readings
that are not negative, and a last deadline plus tolerance
`start + n*Res + Res/100` (for `n` slots) below `2^63`: the capture fails with
an overrun error if and only if, for some slot, the first clock reading `t` at
or after the slot's deadline `d` is later than `d + Res/100`. In that case
`d = start + (k+1)*Res` for the slot `k`, the reported excess is `t - d`, which
exceeds `Res/100`; the call ends on that reading, exactly `k` bank reads were
made, and the buffer slots from `k` on are unchanged. -/
theorem readSamplesBCM_overrun_iff_in_range (h : Host) (b : BitStreamLSB)
    (pins : List String) (num : List Int) (T : Tables) (start : Int) (ts : List Int)
    (hres : b.Res.tmod Microsecond = 0) (hpos : 0 < b.Res) (hlen : pins.length ≤ 9)
    (hscan : scanPins [] pins = .nums num)
    (hfill : fillTables 0 num Tables.zero = .done T)
    (hclock : h.ReadTime = start :: ts)
    (hstart : 0 ≤ start) (hts : ∀ t ∈ ts, 0 ≤ t ∧ t < 2 ^ 63)
    (hfit : start + b.Bits.length * b.Res + b.Res.tdiv 100 < 2 ^ 63) :
    ((∃ e, (readSamplesBCM h b pins).out = .err (.overrun e)) ↔
      (lateSlot b.Res (b.Res.tdiv 100) b.Bits.length (start + b.Res) ts).isSome) ∧
    (∀ k d t rest,
      lateSlot b.Res (b.Res.tdiv 100) b.Bits.length (start + b.Res) ts
        = some (k, d, t, rest) →
      d = start + (k + 1) * b.Res ∧
      (readSamplesBCM h b pins).out = .err (.overrun (t - d)) ∧
      b.Res.tdiv 100 < t - d ∧
      (readSamplesBCM h b pins).host.ReadTime = rest ∧
      (readSamplesBCM h b pins).host.bankReads = h.bankReads + k ∧
      (readSamplesBCM h b pins).bits.length = b.Bits.length ∧
      (readSamplesBCM h b pins).bits.drop k = b.Bits.drop k) := by
  have ha : 0 ≤ b.Res.tdiv 100 := Int.tdiv_nonneg (le_of_lt hpos) (by decide)
  have hlen' : ¬ pins.length > 9 := by omega
  have hrun0 : readSamplesBCM h b pins =
      slotsBCM T b.Res (b.Res.tdiv 100) b.Bits.length 0 (wrap64 (start + b.Res))
        { h with ReadTime := ts, trace := h.trace ++ [.readSamplesBCM] } b.Bits := by
    simp only [readSamplesBCM, hres, hlen', hscan, hfill, hclock, ne_eq, not_true_eq_false,
      if_false]
  rcases Nat.eq_zero_or_pos b.Bits.length with hz | hp
  · rw [hrun0, hz]
    simp [slotsBCM, lateSlot]
  · have hmul : ∀ k : Nat, k ≤ b.Bits.length → (k : Int) * b.Res ≤ b.Bits.length * b.Res :=
      fun k hk => mul_le_mul_of_nonneg_right (by exact_mod_cast hk) (le_of_lt hpos)
    have h1 := hmul 1 hp
    have hw : wrap64 (start + b.Res) = start + b.Res :=
      wrap64_eq _ (by omega) (by push_cast at h1; linarith)
    have hrun : readSamplesBCM h b pins =
        slotsBCM T b.Res (b.Res.tdiv 100) b.Bits.length 0 (start + b.Res)
          { h with ReadTime := ts, trace := h.trace ++ [.readSamplesBCM] } b.Bits := by
      rw [hrun0, hw]
    have key := slotsBCM_late T b.Res (b.Res.tdiv 100) ha (le_of_lt hpos) b.Bits.length 0
      (start + b.Res)
      { h with ReadTime := ts, trace := h.trace ++ [.readSamplesBCM] } b.Bits
      (by omega)
      (by
        intro k hk
        have := hmul (k + 1) (by omega)
        push_cast at this
        linarith)
      hts
    rw [hrun]
    refine ⟨?_, ?_⟩
    · constructor
      · rintro ⟨e, he⟩
        cases hl : lateSlot b.Res (b.Res.tdiv 100) b.Bits.length (start + b.Res) ts with
        | none => exact absurd he (key.1 hl e)
        | some r => rfl
      · intro hsome
        cases hl : lateSlot b.Res (b.Res.tdiv 100) b.Bits.length (start + b.Res) ts with
        | none => simp [hl] at hsome
        | some r =>
          obtain ⟨k, d, t, rest⟩ := r
          exact ⟨t - d, (key.2 k d t rest hl).1⟩
    · intro k d t rest hl
      obtain ⟨h1, h2, h3, h4, h5, h6⟩ := key.2 k d t rest hl
      have hd := lateSlot_deadline b.Res (b.Res.tdiv 100) _ _ _ k d t rest hl
      refine ⟨by rw [hd]; ring, h1, h2, h3, h4, h5, ?_⟩
      simpa using h6

/-- An instance of `readSamplesBCM_overrun_iff_in_range`: resolution 1µs, three
slots, the second tick 500ns late. -/
theorem readSamplesBCM_overrun_iff_in_range_example :
    (readSamplesBCM (fakeHost [0, 1000, 2500, 3000] [] fun _ => 1) ⟨1000, [7, 7, 7]⟩
        ["GPIO0"]).out = .err (.overrun (2500 - 2000)) ∧
    (readSamplesBCM (fakeHost [0, 1000, 2500, 3000] [] fun _ => 1) ⟨1000, [7, 7, 7]⟩
        ["GPIO0"]).host.ReadTime = [3000] ∧
    (readSamplesBCM (fakeHost [0, 1000, 2500, 3000] [] fun _ => 1) ⟨1000, [7, 7, 7]⟩
        ["GPIO0"]).host.bankReads = 0 + 1 :=
  have w := (readSamplesBCM_overrun_iff_in_range
    (fakeHost [0, 1000, 2500, 3000] [] fun _ => 1)
    ⟨1000, [7, 7, 7]⟩ ["GPIO0"] [0] ⟨[1, 0, 0, 0, 0, 0, 0, 0], [0, 0, 0, 0, 0, 0, 0, 0]⟩
    0 [1000, 2500, 3000] (by decide) (by decide) (by decide) (by decide) (by decide)
    rfl (by decide) (by decide) (by decide)).2 1 2000 2500 [3000] (by decide)
  ⟨w.2.1, w.2.2.2.1, w.2.2.2.2.1⟩
/-- A tick of the busy loop of `readSamples` is at or after the deadline, within
the tolerance when the tolerance is not negative, and moves the deadline by one
resolution. -/
theorem waitGeneric_tick (delta a next : Int) :
    ∀ (ts : List Int) (t n' : Int) (rest : List Int),
      waitGeneric delta a next ts = .tick t n' rest →
      next ≤ t ∧ (0 ≤ a → t ≤ next + a) ∧ n' = next + delta := by
  intro ts
  induction ts with
  | nil => intro t n' rest hw; simp [waitGeneric] at hw
  | cons u us ih =>
    intro t n' rest hw
    simp only [waitGeneric] at hw
    split at hw
    · rename_i hc
      simp only [Wait.tick.injEq] at hw
      obtain ⟨rfl, rfl, -⟩ := hw
      exact ⟨by omega, fun ha => by omega, rfl⟩
    · split at hw
      · rename_i hgt
        split at hw
        · simp at hw
        · rename_i hle
          simp only [Wait.tick.injEq] at hw
          obtain ⟨rfl, rfl, -⟩ := hw
          exact ⟨by omega, fun _ => by omega, rfl⟩
      · exact ih t n' rest hw

/-- What a slot loop adds to the log, given what its busy loop guarantees for a
tick: the deadlines `next, next + delta, ...` and captures inside `window`. -/
theorem schedule_step (delta a next : Int) (ok : Prop) (t : Int) (new : List Event)
    (hd : ∀ (k : Nat) (d : Int), (deadlinesOf new)[k]? = some d → d = next + delta + k * delta)
    (hc : ok → ∀ (k : Nat) (u : Int), (capturesOf new)[k]? = some u →
      next + delta + k * delta ≤ u ∧ u ≤ next + delta + k * delta + a)
    (ht : next ≤ t ∧ (ok → t ≤ next + a)) :
    (∀ (k : Nat) (d : Int), (deadlinesOf (.deadline next :: .capture t :: new))[k]? = some d →
      d = next + k * delta) ∧
    (ok → ∀ (k : Nat) (u : Int), (capturesOf (.deadline next :: .capture t :: new))[k]? = some u →
      next + k * delta ≤ u ∧ u ≤ next + k * delta + a) := by
  have e1 : deadlinesOf (.deadline next :: .capture t :: new) = next :: deadlinesOf new := by
    simp [deadlinesOf]
  have e2 : capturesOf (.deadline next :: .capture t :: new) = t :: capturesOf new := by
    simp [capturesOf]
  rw [e1, e2]
  constructor
  · intro k d hk
    cases k with
    | zero => simp at hk; simp [hk]
    | succ k =>
      simp only [List.getElem?_cons_succ] at hk
      rw [hd k d hk]; push_cast; ring
  · intro hok k u hk
    cases k with
    | zero =>
      simp at hk; subst hk
      exact ⟨by simpa using ht.1, by simpa using ht.2 hok⟩
    | succ k =>
      simp only [List.getElem?_cons_succ] at hk
      have := hc hok k u hk
      push_cast
      constructor <;> linarith [this.1, this.2]

/-- The log of the slot loop of `readSamples`. -/
theorem slotsGeneric_schedule (p0 p1 : Option Nat) (delta a : Int) :
    ∀ (m i : Nat) (next : Int) (h : Host) (bits : List Nat),
      ∃ new, (slotsGeneric p0 p1 delta a m i next h bits).host.trace = h.trace ++ new ∧
        (∀ (k : Nat) (d : Int), (deadlinesOf new)[k]? = some d → d = next + k * delta) ∧
        (0 ≤ a → ∀ (k : Nat) (u : Int), (capturesOf new)[k]? = some u →
          next + k * delta ≤ u ∧ u ≤ next + k * delta + a) ∧
        ((slotsGeneric p0 p1 delta a m i next h bits).out = .ok →
          (capturesOf new).length = m) := by
  intro m
  induction m with
  | zero =>
    intro i next h bits
    exact ⟨[], by simp [slotsGeneric], by simp [deadlinesOf], by simp [capturesOf],
      by simp [capturesOf]⟩
  | succ m ih =>
    intro i next h bits
    have single : ∀ (k : Nat) (d : Int), (deadlinesOf [Event.deadline next])[k]? = some d →
        d = next + k * delta := by
      intro k d hk
      cases k with
      | zero => simp [deadlinesOf] at hk; simp [hk]
      | succ k => simp [deadlinesOf] at hk
    simp only [slotsGeneric]
    cases hw : waitGeneric delta a next h.Now with
    | starved => exact ⟨[.deadline next], rfl, single, by simp [capturesOf], by simp⟩
    | overrun e rest => exact ⟨[.deadline next], rfl, single, by simp [capturesOf], by simp⟩
    | tick t n' rest =>
      obtain ⟨h1, h2, rfl⟩ := waitGeneric_tick delta a next h.Now t n' rest hw
      simp only []
      cases p0 with
      | none =>
        have st := schedule_step delta a next (0 ≤ a) t []
          (by simp [deadlinesOf]) (by simp [capturesOf]) ⟨h1, h2⟩
        exact ⟨[.deadline next, .capture t], by simp, st.1, st.2, by simp⟩
      | some x =>
        cases p1 with
        | none =>
          simp only [Host.Read]
          obtain ⟨new, hn, hd, hc, hl⟩ := ih (i + 1) (next + delta)
            { h with Now := rest, reads := Function.update h.reads x (h.reads x + 1),
                     trace := h.trace ++ [.deadline next] ++ [.capture t] }
            (bits.set i (if h.Level x (h.reads x) = true then 1 else 0))
          have st := schedule_step delta a next (0 ≤ a) t new hd hc ⟨h1, h2⟩
          refine ⟨.deadline next :: .capture t :: new, by rw [hn]; simp, st.1, st.2, ?_⟩
          intro hok
          have hcl : (capturesOf (.deadline next :: .capture t :: new)).length =
              (capturesOf new).length + 1 := by simp [capturesOf]
          rw [hcl, hl hok]
        | some y =>
          simp only [Host.Read]
          obtain ⟨new, hn, hd, hc, hl⟩ := ih (i + 1) (next + delta) _ _
          have st := schedule_step delta a next (0 ≤ a) t new hd hc ⟨h1, h2⟩
          refine ⟨.deadline next :: .capture t :: new, by rw [hn]; simp, st.1, st.2, ?_⟩
          intro hok
          have hcl : (capturesOf (.deadline next :: .capture t :: new)).length =
              (capturesOf new).length + 1 := by simp [capturesOf]
          rw [hcl, hl hok]

/-- A tick of the busy loop of `readSamplesBCM` lies between the deadline and
the `int64` value of `next+acceptable`, and the new deadline is the `int64`
value of `next+delta`. -/
theorem waitBCM_tick (delta a next : Int) :
    ∀ (ts : List Int) (t n' : Int) (rest : List Int),
      waitBCM delta a next ts = .tick t n' rest →
      next ≤ t ∧ t ≤ wrap64 (next + a) ∧ n' = wrap64 (next + delta) := by
  intro ts
  induction ts with
  | nil => intro t n' rest hw; simp [waitBCM] at hw
  | cons u us ih =>
    intro t n' rest hw
    simp only [waitBCM] at hw
    split at hw
    · rename_i hc
      simp only [Wait.tick.injEq] at hw
      obtain ⟨rfl, rfl, -⟩ := hw
      exact ⟨hc.1, hc.2, rfl⟩
    · split at hw
      · simp at hw
      · exact ih t n' rest hw

/-- The log of the slot loop of `readSamplesBCM`, as long as the deadlines and
the ends of their windows fit in an `int64`. -/
theorem slotsBCM_schedule (T : Tables) (delta a : Int) :
    ∀ (m i : Nat) (next : Int) (h : Host) (bits : List Nat),
      (∀ k : Nat, k < m → inInt64 (next + k * delta) ∧ inInt64 (next + k * delta + a)) →
      ∃ new, (slotsBCM T delta a m i next h bits).host.trace = h.trace ++ new ∧
        (∀ (k : Nat) (d : Int), (deadlinesOf new)[k]? = some d → d = next + k * delta) ∧
        (True → ∀ (k : Nat) (u : Int), (capturesOf new)[k]? = some u →
          next + k * delta ≤ u ∧ u ≤ next + k * delta + a) ∧
        ((slotsBCM T delta a m i next h bits).out = .ok → (capturesOf new).length = m) := by
  intro m
  induction m with
  | zero =>
    intro i next h bits _
    exact ⟨[], by simp [slotsBCM], by simp [deadlinesOf], by simp [capturesOf],
      by simp [capturesOf]⟩
  | succ m ih =>
    intro i next h bits hfit
    have single : ∀ (k : Nat) (d : Int), (deadlinesOf [Event.deadline next])[k]? = some d →
        d = next + k * delta := by
      intro k d hk
      cases k with
      | zero => simp [deadlinesOf] at hk; simp [hk]
      | succ k => simp [deadlinesOf] at hk
    simp only [slotsBCM]
    cases hw : waitBCM delta a next h.ReadTime with
    | starved => exact ⟨[.deadline next], rfl, single, by simp [capturesOf], by simp⟩
    | overrun e rest => exact ⟨[.deadline next], rfl, single, by simp [capturesOf], by simp⟩
    | tick t n' rest =>
      obtain ⟨h1, h2, rfl⟩ := waitBCM_tick delta a next h.ReadTime t n' rest hw
      have hf0 := hfit 0 (by omega)
      simp only [Nat.cast_zero, zero_mul, add_zero] at hf0
      rw [wrap64_eq _ hf0.2.1 hf0.2.2] at h2
      simp only []
      rcases Nat.eq_zero_or_pos m with hm | hm
      · subst hm
        have st := schedule_step delta a next True t []
          (by simp [deadlinesOf]) (by simp [capturesOf]) ⟨h1, fun _ => h2⟩
        exact ⟨[.deadline next, .capture t], by simp [slotsBCM], st.1, st.2,
          by simp [capturesOf]⟩
      · have hf1 := hfit 1 (by omega)
        simp only [Nat.cast_one, one_mul] at hf1
        rw [wrap64_eq _ hf1.1.1 hf1.1.2]
        obtain ⟨new, hn, hd, hc, hl⟩ := ih (i + 1) (next + delta)
          { h with ReadTime := rest, bankReads := h.bankReads + 1,
                   trace := h.trace ++ [.deadline next] ++ [.capture t] }
          (bits.set i (combine T (h.PinsRead0To31 h.bankReads % 2 ^ 32)))
          (by
            intro k hk
            have := hfit (k + 1) (by omega)
            have e1 : next + ((k + 1 : Nat) : Int) * delta = next + delta + k * delta := by
              push_cast; ring
            rw [e1] at this
            exact this)
        have st := schedule_step delta a next True t new hd hc ⟨h1, fun _ => h2⟩
        refine ⟨.deadline next :: .capture t :: new, by rw [hn]; simp, st.1, st.2, ?_⟩
        intro hok
        have hcl : (capturesOf (.deadline next :: .capture t :: new)).length =
            (capturesOf new).length + 1 := by simp [capturesOf]
        rw [hcl, hl hok]
/-- C9 (counterexample). `readSamples` with the resolution -10µs (which its
check lets through), the initial clock reading 10000 and then the reading 0:
the deadline of slot 0 is `10000 + (-10000) = 0`, the reading 0 equals it and
`now.Equal(next)` accepts it without looking at the tolerance, so slot 0 is
captured at 0, while the claimed window `[0, 0 + (-10000)/100] = [0, -100]` is
empty. -/
theorem readSamples_capture_outside_window :
    (readSamples (fakeHost [] [10000, 0, 1] fun _ => 0) ⟨-10000, [7]⟩ ["HIGH"]).out = .ok ∧
    (readSamples (fakeHost [] [10000, 0, 1] fun _ => 0) ⟨-10000, [7]⟩ ["HIGH"]).host.trace
      = [.readSamples, .deadline (10000 + (0 + 1) * (-10000)), .capture 0] ∧
    ¬ ((0 : Int) ≤ 10000 + (0 + 1) * (-10000) + (-10000 : Int).tdiv 100) := by
  decide

/-- C9 (amended). Schedule invariant. With `start` the initial clock reading,
the slots that `readSamples` reaches use the deadlines `start + Res`,
`start + 2*Res`, ...: the deadline of slot `k` is `start + (k+1)*Res` whatever
readings were accepted before, for every resolution and clock sequence. With
a resolution that is not negative, the reading on which slot `k` is captured
lies in `[start + (k+1)*Res, start + (k+1)*Res + Res/100]`, and a capture that
returns without error has captured every slot. The same holds for
`readSamplesBCM` on a bank request, there for every resolution, as long as
`start + (k+1)*Res` and `start + (k+1)*Res + Res/100` fit in an `int64` for
every slot `k` of the buffer. -/
theorem schedule_invariant (h : Host) (b : BitStreamLSB) (pins : List String) :
    (∀ start rest, h.Now = start :: rest →
      ∃ new, (readSamples h b pins).host.trace = h.trace ++ Event.readSamples :: new ∧
        (∀ (k : Nat) (d : Int), (deadlinesOf new)[k]? = some d →
          d = start + (k + 1) * b.Res) ∧
        (0 ≤ b.Res → ∀ (k : Nat) (u : Int), (capturesOf new)[k]? = some u →
          start + (k + 1) * b.Res ≤ u ∧ u ≤ start + (k + 1) * b.Res + b.Res.tdiv 100) ∧
        ((readSamples h b pins).out = .ok → (capturesOf new).length = b.Bits.length)) ∧
    (∀ start rest num, h.ReadTime = start :: rest → scanPins [] pins = .nums num →
      (∀ k : Nat, k < b.Bits.length →
        inInt64 (start + (k + 1) * b.Res) ∧
        inInt64 (start + (k + 1) * b.Res + b.Res.tdiv 100)) →
      ∃ new, (readSamplesBCM h b pins).host.trace = h.trace ++ Event.readSamplesBCM :: new ∧
        (∀ (k : Nat) (d : Int), (deadlinesOf new)[k]? = some d →
          d = start + (k + 1) * b.Res) ∧
        (∀ (k : Nat) (u : Int), (capturesOf new)[k]? = some u →
          start + (k + 1) * b.Res ≤ u ∧ u ≤ start + (k + 1) * b.Res + b.Res.tdiv 100) ∧
        ((readSamplesBCM h b pins).out = .ok → (capturesOf new).length = b.Bits.length)) := by
  constructor
  · intro start rest hnow
    simp only [readSamples]
    by_cases hres : b.Res.tmod (10 * Microsecond) = 0
    swap
    · exact ⟨[], by simp [hres], by simp [deadlinesOf], by simp [capturesOf], by simp [hres]⟩
    · simp only [hres, ne_eq, not_true_eq_false, if_false]
      by_cases hlen : pins.length > 2
      · exact ⟨[], by simp [hlen], by simp [deadlinesOf], by simp [capturesOf],
          by simp [hlen]⟩
      · simp only [hlen, if_false]
        cases hrp : resolvePins { h with trace := h.trace ++ [Event.readSamples] } 0 pins
            [none, none] with
        | stop o =>
          have hne : ∀ (i : Nat) (ps : List String) (p : List (Option Nat)),
              resolvePins { h with trace := h.trace ++ [Event.readSamples] } i ps p
                ≠ .stop .ok := by
            intro i ps
            induction ps generalizing i with
            | nil => intro p; simp [resolvePins]
            | cons q qs ihq =>
              intro p
              simp only [resolvePins]
              split
              · simp
              · split
                · simp
                · exact ihq _ _
          have ho : o ≠ .ok := by
            intro hh; rw [hh] at hrp; exact hne _ _ _ hrp
          exact ⟨[], by simp, by simp [deadlinesOf], by simp [capturesOf],
            fun hh => absurd hh ho⟩
        | done p =>
          simp only [hnow]
          obtain ⟨new, hn, hd, hc, hl⟩ :=
            slotsGeneric_schedule (p.getD 0 none) (p.getD 1 none) b.Res (b.Res.tdiv 100)
              b.Bits.length 0 (start + b.Res)
              { h with Now := rest, trace := h.trace ++ [Event.readSamples] } b.Bits
          refine ⟨new, by rw [hn]; simp, ?_, ?_, hl⟩
          · intro k d hk
            rw [hd k d hk]; ring
          · intro hpos k u hk
            have := hc (Int.tdiv_nonneg hpos (by decide)) k u hk
            constructor <;> linarith [this.1, this.2]
  · intro start rest num hclock hscan hfit
    simp only [readSamplesBCM]
    by_cases hres : b.Res.tmod Microsecond = 0
    swap
    · exact ⟨[], by simp [hres], by simp [deadlinesOf], by simp [capturesOf], by simp [hres]⟩
    · simp only [hres, ne_eq, not_true_eq_false, if_false]
      by_cases hlen : pins.length > 9
      · exact ⟨[], by simp [hlen], by simp [deadlinesOf], by simp [capturesOf],
          by simp [hlen]⟩
      · simp only [hlen, if_false, hscan]
        cases hft : fillTables 0 num Tables.zero with
        | stop o =>
          have hne : ∀ (i : Nat) (ns : List Int) (T : Tables),
              fillTables i ns T ≠ .stop .ok := by
            intro i ns
            induction ns generalizing i with
            | nil => intro T; simp [fillTables]
            | cons q qs ihq =>
              intro T
              simp only [fillTables]
              split
              · simp
              · split
                · simp
                · exact ihq _ _
          have ho : o ≠ .ok := by
            intro hh; rw [hh] at hft; exact hne _ _ _ hft
          exact ⟨[], by simp, by simp [deadlinesOf], by simp [capturesOf],
            fun hh => absurd hh ho⟩
        | done T =>
          simp only [hclock]
          rcases Nat.eq_zero_or_pos b.Bits.length with hz | hp
          · rw [hz]
            exact ⟨[], by simp [slotsBCM], by simp [deadlinesOf], by simp [capturesOf],
              by simp [capturesOf]⟩
          · have hf0 := (hfit 0 hp).1
            simp only [Nat.cast_zero, zero_add, one_mul] at hf0
            rw [wrap64_eq _ hf0.1 hf0.2]
            obtain ⟨new, hn, hd, hc, hl⟩ :=
              slotsBCM_schedule T b.Res (b.Res.tdiv 100) b.Bits.length 0 (start + b.Res)
                { h with ReadTime := rest, trace := h.trace ++ [Event.readSamplesBCM] } b.Bits
                (by
                  intro k hk
                  have := hfit k hk
                  have e1 : start + ((k : Int) + 1) * b.Res = start + b.Res + k * b.Res := by
                    ring
                  rw [e1] at this
                  exact this)
            refine ⟨new, by rw [hn]; simp, ?_, ?_, hl⟩
            · intro k d hk
              rw [hd k d hk]; ring
            · intro k u hk
              have := hc trivial k u hk
              constructor <;> linarith [this.1, this.2]


/-- Witness of `schedule_invariant`: two slots at 10µs on the generic path, the
second tick 50ns late, and two slots at 1µs on the bank path, the second tick
5ns late. -/
theorem schedule_invariant_witness :
    ((fakeHost [] [0, 10000, 20050] fun _ => 0).Now = 0 :: [10000, 20050] ∧
      (0 : Int) ≤ 10000 ∧
      (readSamples (fakeHost [] [0, 10000, 20050] fun _ => 0) ⟨10000, [7, 7]⟩
        ["HIGH"]).host.trace =
        [.readSamples, .deadline 10000, .capture 10000, .deadline 20000, .capture 20050] ∧
      ∃ new,
        (readSamples (fakeHost [] [0, 10000, 20050] fun _ => 0) ⟨10000, [7, 7]⟩
          ["HIGH"]).host.trace = [] ++ Event.readSamples :: new ∧
        (∀ (k : Nat) (d : Int), (deadlinesOf new)[k]? = some d →
          d = 0 + (k + 1) * 10000) ∧
        (∀ (k : Nat) (u : Int), (capturesOf new)[k]? = some u →
          0 + (k + 1) * 10000 ≤ u ∧ u ≤ 0 + (k + 1) * 10000 + (10000 : Int).tdiv 100) ∧
        (capturesOf new).length = 2) ∧
    ((fakeHost [0, 1000, 2005] [] fun _ => 1).ReadTime = 0 :: [1000, 2005] ∧
      scanPins [] ["GPIO0"] = .nums [0] ∧
      (∀ k : Nat, k < 2 →
        inInt64 (0 + (k + 1) * 1000) ∧ inInt64 (0 + (k + 1) * 1000 + (1000 : Int).tdiv 100)) ∧
      (readSamplesBCM (fakeHost [0, 1000, 2005] [] fun _ => 1) ⟨1000, [7, 7]⟩
        ["GPIO0"]).host.trace =
        [.readSamplesBCM, .deadline 1000, .capture 1000, .deadline 2000, .capture 2005] ∧
      ∃ new,
        (readSamplesBCM (fakeHost [0, 1000, 2005] [] fun _ => 1) ⟨1000, [7, 7]⟩
          ["GPIO0"]).host.trace = [] ++ Event.readSamplesBCM :: new ∧
        (∀ (k : Nat) (d : Int), (deadlinesOf new)[k]? = some d →
          d = 0 + (k + 1) * 1000) ∧
        (∀ (k : Nat) (u : Int), (capturesOf new)[k]? = some u →
          0 + (k + 1) * 1000 ≤ u ∧ u ≤ 0 + (k + 1) * 1000 + (1000 : Int).tdiv 100) ∧
        (capturesOf new).length = 2) :=
  ⟨⟨rfl, by decide, by decide,
    match (schedule_invariant (fakeHost [] [0, 10000, 20050] fun _ => 0) ⟨10000, [7, 7]⟩
      ["HIGH"]).1 0 [10000, 20050] rfl with
    | ⟨new, h1, h2, h3, h4⟩ => ⟨new, h1, h2, h3 (by decide), h4 (by decide)⟩⟩,
   ⟨rfl, by decide, by decide, by decide,
    match (schedule_invariant (fakeHost [0, 1000, 2005] [] fun _ => 1) ⟨1000, [7, 7]⟩
      ["GPIO0"]).2 0 [1000, 2005] [0] rfl (by decide) (by decide) with
    | ⟨new, h1, h2, h3, h4⟩ => ⟨new, h1, h2, h3, h4 (by decide)⟩⟩⟩
/-- With a first pin that resolved, the slot loop of `readSamples` never faults:
`p[0]` is not nil, and `p[1]` is read only when it is not nil. -/
theorem slotsGeneric_no_fault (a : Nat) (p1 : Option Nat) (delta acc : Int) :
    ∀ (m i : Nat) (next : Int) (h : Host) (bits : List Nat) (p : Panic),
      (slotsGeneric (some a) p1 delta acc m i next h bits).out ≠ .panic p := by
  intro m
  induction m with
  | zero => intro i next h bits p; simp [slotsGeneric]
  | succ m ih =>
    intro i next h bits p
    simp only [slotsGeneric]
    cases hw : waitGeneric delta acc next h.Now with
    | starved => simp
    | overrun e rest => simp
    | tick t n' rest =>
      simp only []
      cases p1 with
      | none => exact ih _ _ _ _ _
      | some c => exact ih _ _ _ _ _

/-- For a request of one or two names that all resolve, `readSamples` never
faults, whatever the buffer and the clock: every `Read()` goes to a resolved
pin. -/
theorem readSamples_no_fault_with_pins (h : Host) (b : BitStreamLSB) (pins : List String)
    (hne : pins ≠ []) (hall : ∀ q ∈ pins, (h.ByName q).isSome = true) (p : Panic) :
    (readSamples h b pins).out ≠ .panic p := by
  simp only [readSamples]
  by_cases hres : b.Res.tmod (10 * Microsecond) = 0
  swap
  · simp [hres]
  · simp only [hres, ne_eq, not_true_eq_false, if_false]
    by_cases hlen : pins.length > 2
    · simp [hlen]
    · simp only [hlen, if_false]
      rcases pins with _ | ⟨a, _ | ⟨c, _ | ⟨d, tl⟩⟩⟩
      · exact absurd rfl hne
      · obtain ⟨ia, ha⟩ := Option.isSome_iff_exists.mp (hall a (by simp))
        simp only [resolvePins, ha]
        cases h.Now with
        | nil => simp
        | cons start rest => exact slotsGeneric_no_fault ia _ _ _ _ _ _ _ _ p
      · obtain ⟨ia, ha⟩ := Option.isSome_iff_exists.mp (hall a (by simp))
        obtain ⟨ic, hc⟩ := Option.isSome_iff_exists.mp (hall c (by simp))
        simp only [resolvePins, ha, hc]
        cases h.Now with
        | nil => simp
        | cons start rest => exact slotsGeneric_no_fault ia _ _ _ _ _ _ _ _ p
      · simp at hlen

/-- Called with the empty pin list, `readSamples` passes its validation (no
name, so none is unresolved) and leaves `p[0]` nil. With a non-empty buffer,
as soon as the busy loop of the first slot accepts a clock reading,
`p[0].Read()` is executed on the nil pin and the call faults; no slot has been
written. -/
theorem readSamples_empty_pins_nil_read (h : Host) (b : BitStreamLSB)
    (start : Int) (rest : List Int) (t n' : Int) (rest' : List Int)
    (hres : b.Res.tmod (10 * Microsecond) = 0)
    (hbuf : b.Bits ≠ [])
    (hnow : h.Now = start :: rest)
    (htick : waitGeneric b.Res (b.Res.tdiv 100) (start + b.Res) rest = .tick t n' rest') :
    (readSamples h b []).out = .panic .nilDereference ∧
    (readSamples h b []).bits = b.Bits ∧
    (readSamples h b []).host.reads = h.reads := by
  cases hb : b.Bits with
  | nil => exact absurd hb hbuf
  | cons x xs =>
    simp [readSamples, hres, resolvePins, hnow, hb, slotsGeneric, htick]

/-- C11 (counterexample). `readSamples` called with the empty pin list, a 10µs
resolution, a one-slot buffer and a clock that reaches the first deadline:
the validation passes, `p[0]` is nil, and `p[0].Read()` faults. -/
theorem readSamples_empty_list_faults :
    (readSamples (fakeHost [] [0, 10000] fun _ => 0) ⟨10000, [7]⟩ []).out
      = .panic .nilDereference ∧
    (readSamples (fakeHost [] [0, 10000] fun _ => 0) ⟨10000, [7]⟩ []).bits = [7] := by
  decide

/-- For a non-empty request `readSamples` never faults: either the validation
rejects it, or `p[0]` is a resolved pin. -/
theorem readSamples_no_fault (h : Host) (b : BitStreamLSB) (pins : List String)
    (hne : pins ≠ []) (p : Panic) :
    (readSamples h b pins).out ≠ .panic p := by
  simp only [readSamples]
  by_cases hres : b.Res.tmod (10 * Microsecond) = 0
  swap
  · simp [hres]
  · simp only [hres, ne_eq, not_true_eq_false, if_false]
    by_cases hlen : pins.length > 2
    · simp [hlen]
    · simp only [hlen, if_false]
      rcases pins with _ | ⟨a, _ | ⟨c, _ | ⟨d, tl⟩⟩⟩
      · exact absurd rfl hne
      · cases ha : h.ByName a with
        | none => simp [resolvePins, ha]
        | some ia =>
          simp only [resolvePins, ha]
          cases h.Now with
          | nil => simp
          | cons start rest => exact slotsGeneric_no_fault ia _ _ _ _ _ _ _ _ p
      · cases ha : h.ByName a with
        | none => simp [resolvePins, ha]
        | some ia =>
          cases hc : h.ByName c with
          | none => simp [resolvePins, ha, hc]
          | some ic =>
            simp only [resolvePins, ha, hc]
            cases h.Now with
            | nil => simp
            | cons start rest => exact slotsGeneric_no_fault ia _ _ _ _ _ _ _ _ p
      · simp at hlen

/-- The slot loop of `readSamplesBCM` never faults. -/
theorem slotsBCM_no_fault (T : Tables) (delta acc : Int) :
    ∀ (m i : Nat) (next : Int) (h : Host) (bits : List Nat) (p : Panic),
      (slotsBCM T delta acc m i next h bits).out ≠ .panic p := by
  intro m
  induction m with
  | zero => intro i next h bits p; simp [slotsBCM]
  | succ m ih =>
    intro i next h bits p
    simp only [slotsBCM]
    cases hw : waitBCM delta acc next h.ReadTime with
    | starved => simp
    | overrun e rest => simp
    | tick t n' rest => exact ih _ _ _ _ _

/-- The table loop of `readSamplesBCM` never stops on a nil pin. -/
theorem fillTables_stop (i : Nat) (ns : List Int) (T : Tables) :
    fillTables i ns T ≠ .stop (.panic .nilDereference) := by
  induction ns generalizing i T with
  | nil => simp [fillTables]
  | cons q qs ih =>
    simp only [fillTables]
    split
    · simp
    · split
      · simp
      · exact ih _ _

/-- The scan of `readSamplesBCM` falls back only on a name of the list. -/
theorem scanPins_generic_ne_nil (pins : List String) (num : List Int)
    (hs : scanPins num pins = .generic) : pins ≠ [] := by
  intro hnil
  subst hnil
  simp [scanPins] at hs

/-- `strings.Split` never returns an empty list. -/
theorem splitAux_ne_nil (cs : List Char) : ∀ cur, splitAux cur cs ≠ [] := by
  induction cs with
  | nil => intro cur; simp [splitAux]
  | cons c cs ih =>
    intro cur
    simp only [splitAux]
    split
    · simp
    · exact ih _

/-- `readSamplesBCM` never reads a nil pin. -/
theorem readSamplesBCM_no_nil (h : Host) (b : BitStreamLSB) (pins : List String) :
    (readSamplesBCM h b pins).out ≠ .panic .nilDereference := by
  simp only [readSamplesBCM]
  by_cases hres : b.Res.tmod Microsecond = 0
  swap
  · simp [hres]
  · simp only [hres, ne_eq, not_true_eq_false, if_false]
    by_cases hlen : pins.length > 9
    · simp [hlen]
    · simp only [hlen, if_false]
      cases hscan : scanPins [] pins with
      | failed q => simp
      | generic =>
        exact readSamples_no_fault _ b pins (scanPins_generic_ne_nil pins [] hscan) _
      | nums num =>
        simp only []
        cases hft : fillTables 0 num Tables.zero with
        | stop o =>
          simp only []
          intro ho
          rw [ho] at hft
          exact fillTables_stop _ _ _ hft
        | done T =>
          simp only []
          cases h.ReadTime with
          | nil => simp
          | cons start rest => exact slotsBCM_no_fault T _ _ _ _ _ _ _ _

/-- C11 (amended). For every non-empty pin list and every buffer, `readSamples`
never executes `p[0].Read()` on a nil pin (it does not fault at all): either
its validation rejects the request or `p[0]` was resolved. The empty list, for
which `p[0]` stays nil, is not passed to it: `readSamplesBCM` falls back only
on meeting a name and never reads a nil pin, and `readHandler`, which rejects
an empty `pins` argument and splits a non-empty one into at least one name,
never faults on a nil pin. -/
theorem no_nil_read :
    (∀ (h : Host) (b : BitStreamLSB) (pins : List String), pins ≠ [] →
      ∀ p, (readSamples h b pins).out ≠ .panic p) ∧
    (∀ (h : Host) (b : BitStreamLSB) (pins : List String),
      (readSamplesBCM h b pins).out ≠ .panic .nilDereference) ∧
    (∀ (v : String), Split v ≠ []) ∧
    (∀ (ParseDuration : String → Option Int) (isBCM : Bool) (h : Host) (r : Request),
      (readHandler ParseDuration isBCM h r).1 ≠ .fault .nilDereference) := by
  have hsplit : ∀ (v : String), Split v ≠ [] := by
    intro v
    simp [Split, splitAux_ne_nil]
  refine ⟨fun h b pins hne p => readSamples_no_fault h b pins hne p,
    readSamplesBCM_no_nil, hsplit, ?_⟩
  intro PD isBCM h r
  have key : ∀ run : Run, run.out ≠ .panic .nilDereference →
      (match run.out with
        | .ok => (Response.octets run.bits, run.host)
        | .err e => (Response.error 400 (.sampler e), run.host)
        | .panic p => (Response.fault p, run.host)
        | .starved => (Response.starved, run.host)).1 ≠ .fault .nilDereference := by
    intro run hrun
    cases ho : run.out with
    | ok => simp
    | err e => simp
    | panic p =>
      simp only [ne_eq, Response.fault.injEq]
      intro hp
      rw [ho, hp] at hrun
      exact hrun rfl
    | starved => simp
  unfold readHandler
  by_cases hm : r.Method = "GET"
  swap
  · simp [hm]
  by_cases hp : r.pins = ""
  · simp [hm, hp]
  by_cases hr : r.res = ""
  · simp [hm, hp, hr]
  cases hres : PD r.res with
  | none => simp [hm, hp, hr, hres]
  | some res =>
    by_cases hd : r.dur = ""
    · simp [hm, hp, hr, hres, hd]
    cases hdur : PD r.dur with
    | none => simp [hm, hp, hr, hres, hd, hdur]
    | some dur =>
      by_cases hz : res = 0
      · simp [hm, hp, hr, hres, hd, hdur, hz]
      by_cases hrem : dur.tmod res = 0
      swap
      · simp [hm, hp, hr, hres, hd, hdur, hz, hrem]
      by_cases hneg : dur.tdiv res < 0
      · simp [hm, hp, hr, hres, hd, hdur, hz, hrem, hneg]
      simp only [hm, hp, hr, hres, hd, hdur, hz, hrem, hneg, ne_eq, not_true_eq_false,
        if_false]
      apply key
      cases isBCM with
      | true => exact readSamplesBCM_no_nil _ _ _
      | false => exact readSamples_no_fault _ _ _ (hsplit r.pins) _

/-- Witness of `no_nil_read`: the one-name request `[HIGH]`. -/
theorem no_nil_read_witness :
    (["HIGH"] : List String) ≠ [] ∧
    (readSamples (fakeHost [] [0, 10000] fun _ => 0) ⟨10000, [7]⟩ ["HIGH"]).out
      ≠ .panic .nilDereference :=
  ⟨by decide, no_nil_read.1 (fakeHost [] [0, 10000] fun _ => 0) ⟨10000, [7]⟩ ["HIGH"]
    (by decide) .nilDereference⟩
end GpioWeb
